import Mathlib

/-!
Verification of the translator core (paragraph splitting, unit building,
batching, strict-JSON response validation, retry/fallback, merge).

JavaScript strings are modelled as `List Char`; machine effects (the model
call, random jitter) are modelled as explicit oracles passed to the
functions that use them.  The bounded dispatcher writes each batch result
into a slot indexed by batch position, so the collected result list does not
depend on completion order; it is therefore modelled as ordered sequential
processing, and order-robustness of the final merge is proved separately by
quantifying over permutations of the pre-merge sequence.
-/

namespace Translator

/-- JavaScript strings, modelled as lists of characters. -/
abbrev Str := List Char

/-- Shorthand to turn a Lean string literal into the `Str` model. -/
def str (s : String) : Str := s.data

/-- Code points of the ECMAScript WhiteSpace and LineTerminator characters:
the set removed by `String.prototype.trim` and matched by the regex class
`\s`. -/
def jsWhitespaceCodes : List Nat :=
  [0x9, 0xa, 0xb, 0xc, 0xd, 0x20, 0xa0, 0x1680,
   0x2000, 0x2001, 0x2002, 0x2003, 0x2004, 0x2005, 0x2006, 0x2007,
   0x2008, 0x2009, 0x200a, 0x2028, 0x2029, 0x202f, 0x205f, 0x3000, 0xfeff]

/-- Whether a character is ECMAScript whitespace. -/
def isJsWs (c : Char) : Bool := jsWhitespaceCodes.contains c.toNat

/-- `String.prototype.trim`: strip leading and trailing whitespace. -/
def trim (s : Str) : Str :=
  ((s.dropWhile isJsWs).reverse.dropWhile isJsWs).reverse

/-- All characters of a string with whitespace removed (used to state
content preservation modulo whitespace). -/
def stripWs (s : Str) : Str := s.filter (fun c => !isJsWs c)

section TrimLemmas

variable {p : Char → Bool}

theorem dropWhile_head_false {l : Str} {c : Char} {cs : Str}
    (h : l.dropWhile p = c :: cs) : p c = false := by
  induction l with
  | nil => simp at h
  | cons a l ih =>
    by_cases hpa : p a = true
    · rw [List.dropWhile_cons_of_pos hpa] at h
      exact ih h
    · rw [List.dropWhile_cons_of_neg hpa] at h
      cases h
      simpa using hpa

theorem dropWhile_of_head_false {c : Char} {cs : Str} (h : p c = false) :
    (c :: cs).dropWhile p = c :: cs :=
  List.dropWhile_cons_of_neg (by simp [h])

theorem dropWhile_dropWhile (l : Str) :
    (l.dropWhile p).dropWhile p = l.dropWhile p := by
  cases h : l.dropWhile p with
  | nil => simp
  | cons c cs => exact dropWhile_of_head_false (dropWhile_head_false h)

theorem dropWhile_sub_suffix (l : Str) : ∃ t, t ++ l.dropWhile p = l := by
  induction l with
  | nil => exact ⟨[], rfl⟩
  | cons a l ih =>
    by_cases hpa : p a = true
    · obtain ⟨t, ht⟩ := ih
      exact ⟨a :: t, by simp [List.dropWhile_cons_of_pos hpa, ht]⟩
    · exact ⟨[], by simp [List.dropWhile_cons_of_neg hpa]⟩

/-- The left end of a trimmed string carries no removable whitespace. -/
theorem dropWhile_trim (s : Str) : (trim s).dropWhile isJsWs = trim s := by
  unfold trim
  cases ht : ((s.dropWhile isJsWs).reverse.dropWhile isJsWs).reverse with
  | nil => simp
  | cons c cs =>
    obtain ⟨w, hw⟩ :=
      dropWhile_sub_suffix (p := isJsWs) (s.dropWhile isJsWs).reverse
    have hrev : s.dropWhile isJsWs = (c :: cs) ++ w.reverse := by
      have h2 := congrArg List.reverse hw
      simp only [List.reverse_append, List.reverse_reverse] at h2
      rw [ht] at h2
      exact h2.symm
    have hc : isJsWs c = false := by
      cases hu : s.dropWhile isJsWs with
      | nil => rw [hu] at hrev; simp at hrev
      | cons u us =>
        rw [hu] at hrev
        have : u = c := by
          have := congrArg List.head? hrev
          simpa using this
        subst this
        exact dropWhile_head_false hu
    exact dropWhile_of_head_false hc

/-- The right end of a trimmed string carries no removable whitespace. -/
theorem dropWhile_reverse_trim (s : Str) :
    (trim s).reverse.dropWhile isJsWs = (trim s).reverse := by
  unfold trim
  simpa using dropWhile_dropWhile (p := isJsWs) (s.dropWhile isJsWs).reverse

/-- Trimming is idempotent. -/
theorem trim_trim (s : Str) : trim (trim s) = trim s := by
  conv_lhs => rw [trim, dropWhile_trim, dropWhile_reverse_trim]
  simp

end TrimLemmas

/-! ## Paragraph splitter (chunking.js) -/

/-- Worker for `normalizeNewlines`.  The flag records that the previous
character was a CR (for which an LF has already been emitted), so that an LF
directly following it is dropped — exactly the effect of replacing each
match of `/\r\n?/` by `'\n'`. -/
def normNlGo : Str → Bool → Str
  | [], _ => []
  | c :: rest, afterCR =>
    if c = '\r' then '\n' :: normNlGo rest true
    else if c = '\n' then
      (if afterCR then normNlGo rest false else '\n' :: normNlGo rest false)
    else c :: normNlGo rest false

/-- `normalizeNewlines`: `text.replace(/\r\n?/g, '\n')` — every CRLF pair and
every lone CR becomes a single LF. -/
def normalizeNewlines (s : Str) : Str := normNlGo s false

/-- Worker for splitting on maximal runs of at least `k` line feeds
(the semantics of `split(/\n{2,}/)` for `k = 2` and `split(/\n+/)` for
`k = 1`).  `cur` is the current piece accumulated in reverse, `pending`
counts line feeds seen but not yet classified. -/
def splitRunsGo (k : Nat) : Str → Str → Nat → List Str
  | [], cur, pending =>
    if k ≤ pending then [cur.reverse, []]
    else [cur.reverse ++ List.replicate pending '\n']
  | c :: cs, cur, pending =>
    if c = '\n' then splitRunsGo k cs cur (pending + 1)
    else if k ≤ pending then cur.reverse :: splitRunsGo k cs [c] 0
    else splitRunsGo k cs (c :: (List.replicate pending '\n' ++ cur)) 0

/-- Split a string on maximal runs of at least `k` line feeds. -/
def splitRuns (k : Nat) (s : Str) : List Str := splitRunsGo k s [] 0

/-- `/\n{2,}/.test(s)`: whether the string has two consecutive line feeds. -/
def containsDoubleNl : Str → Bool
  | '\n' :: '\n' :: _ => true
  | _ :: rest => containsDoubleNl rest
  | [] => false

/-- `splitIntoParagraphs`: normalize line endings, trim, split on blank-line
runs when any exist and otherwise on single line feeds, then trim each piece
and discard empty ones. -/
def splitIntoParagraphs (text : Str) : List Str :=
  let normalized := trim (normalizeNewlines text)
  if normalized = [] then []
  else
    let parts :=
      if containsDoubleNl normalized then splitRuns 2 normalized
      else splitRuns 1 normalized
    (parts.map trim).filter (fun p => !p.isEmpty)

theorem mem_normNlGo {c : Char} :
    ∀ {text : Str} {b : Bool}, c ∈ normNlGo text b → c = '\n' ∨ c ∈ text := by
  intro text
  induction text with
  | nil => intro b h; simp [normNlGo] at h
  | cons a rest ih =>
    intro b h
    rw [normNlGo] at h
    by_cases ha : a = '\r'
    · rw [if_pos ha] at h
      rcases List.mem_cons.mp h with h | h
      · exact Or.inl h
      · rcases ih h with h | h
        · exact Or.inl h
        · exact Or.inr (List.mem_cons_of_mem _ h)
    · rw [if_neg ha] at h
      by_cases ha2 : a = '\n'
      · rw [if_pos ha2] at h
        cases b with
        | true =>
          simp only [reduceIte] at h
          rcases ih h with h | h
          · exact Or.inl h
          · exact Or.inr (List.mem_cons_of_mem _ h)
        | false =>
          simp only [Bool.false_eq_true, reduceIte] at h
          rcases List.mem_cons.mp h with h | h
          · exact Or.inl h
          · rcases ih h with h | h
            · exact Or.inl h
            · exact Or.inr (List.mem_cons_of_mem _ h)
      · rw [if_neg ha2] at h
        rcases List.mem_cons.mp h with h | h
        · subst h; exact Or.inr (List.mem_cons_self _ _)
        · rcases ih h with h | h
          · exact Or.inl h
          · exact Or.inr (List.mem_cons_of_mem _ h)

theorem mem_normalizeNewlines {text : Str} {c : Char}
    (h : c ∈ normalizeNewlines text) : c = '\n' ∨ c ∈ text :=
  mem_normNlGo h

theorem trim_eq_nil_of_all_ws {s : Str} (h : ∀ c ∈ s, isJsWs c = true) :
    trim s = [] := by
  have h1 : s.dropWhile isJsWs = [] := List.dropWhile_eq_nil_iff.mpr h
  simp [trim, h1]

/-- C3: the paragraph splitter normalizes line endings and trims the whole
text; whitespace-only (in particular empty) input yields the empty sequence;
every produced paragraph is non-empty and trimmed; and on non-blank input it
splits on runs of two or more line feeds when one exists, otherwise on
single line feeds, trimming each piece and discarding empty pieces. -/
theorem claimC3 (text : Str) :
    ((∀ c ∈ text, isJsWs c = true) → splitIntoParagraphs text = []) ∧
    (∀ p ∈ splitIntoParagraphs text, p ≠ [] ∧ trim p = p) ∧
    (trim (normalizeNewlines text) ≠ [] →
      splitIntoParagraphs text =
        ((if containsDoubleNl (trim (normalizeNewlines text)) = true
            then splitRuns 2 (trim (normalizeNewlines text))
            else splitRuns 1 (trim (normalizeNewlines text))).map trim).filter
          (fun p => !p.isEmpty)) := by
  refine ⟨?_, ?_, ?_⟩
  · intro h
    have hall : ∀ c ∈ normalizeNewlines text, isJsWs c = true := by
      intro c hc
      rcases mem_normalizeNewlines hc with rfl | hc
      · decide
      · exact h c hc
    simp [splitIntoParagraphs, trim_eq_nil_of_all_ws hall]
  · intro p hp
    unfold splitIntoParagraphs at hp
    by_cases hz : trim (normalizeNewlines text) = []
    · simp [hz] at hp
    · simp only [hz, if_neg, reduceIte] at hp
      rw [List.mem_filter] at hp
      obtain ⟨hp1, hp2⟩ := hp
      obtain ⟨q, _, rfl⟩ := List.mem_map.mp hp1
      refine ⟨?_, trim_trim q⟩
      simpa using hp2
  · intro hz
    simp [splitIntoParagraphs, hz]

/-- Witness for C3 with each hypothesis discharged on concrete input:
whitespace-only input gives no paragraphs; the blank-line splitting branch
applies to a concrete two-paragraph text. -/
theorem claimC3_witness :
    splitIntoParagraphs (str " \t ") = [] ∧
    splitIntoParagraphs (str "a\n\nb") =
      ((if containsDoubleNl (trim (normalizeNewlines (str "a\n\nb"))) = true
          then splitRuns 2 (trim (normalizeNewlines (str "a\n\nb")))
          else splitRuns 1 (trim (normalizeNewlines (str "a\n\nb")))).map
        trim).filter (fun p => !p.isEmpty) :=
  ⟨(claimC3 (str " \t ")).1 (by decide),
   (claimC3 (str "a\n\nb")).2.2 (by decide)⟩

/-! ## Unit builder: sub-segmentation of oversized paragraphs (chunking.js) -/

/-- Fuel-driven worker for `hardSplit` (fixed-width cuts).  With fuel at
least the string length and a positive width the fuel never runs out; the
out-of-fuel fallback returns the input whole so that content is preserved
unconditionally. -/
def hardSplitGo : Nat → Str → Nat → List Str
  | 0, s, _ => if s.isEmpty then [] else [s]
  | fuel + 1, s, maxChunkChars =>
    if s.isEmpty then []
    else s.take maxChunkChars :: hardSplitGo fuel (s.drop maxChunkChars) maxChunkChars

/-- `hardSplit`: cut a string into consecutive slices of `maxChunkChars`
characters. -/
def hardSplit (s : Str) (maxChunkChars : Nat) : List Str :=
  hardSplitGo s.length s maxChunkChars

/-- The sentence-terminal punctuation characters of the splitting regex:
Latin `.`, `!`, `?` plus Arabic `؟` and `؛`. -/
def isSentenceTerm (c : Char) : Bool :=
  ['.', '!', '?', '؟', '؛'].contains c

/-- Fuel-driven worker computing the global matches of
`/[^.!?؟؛]+[.!?؟؛]*/g`: each match is a maximal run of non-terminators
followed by the adjacent run of terminators; terminator runs before the
first non-terminator belong to no match. -/
def sentenceMatchesGo : Nat → Str → List Str
  | 0, _ => []
  | fuel + 1, s =>
    let s' := s.dropWhile isSentenceTerm
    if s'.isEmpty then []
    else
      let body := s'.takeWhile (fun c => !isSentenceTerm c)
      let after := s'.dropWhile (fun c => !isSentenceTerm c)
      let terms := after.takeWhile isSentenceTerm
      let rest := after.dropWhile isSentenceTerm
      (body ++ terms) :: sentenceMatchesGo fuel rest

/-- All matches of the sentence regex over a string. -/
def sentenceMatches (s : Str) : List Str := sentenceMatchesGo s.length s

/-- `splitBySentence`: the matches of the sentence regex, each trimmed, with
empty results discarded; a string with no match at all is returned whole. -/
def splitBySentence (s : Str) : List Str :=
  let ms := sentenceMatches s
  if ms.isEmpty then [s]
  else (ms.map trim).filter (fun t => !t.isEmpty)

/-- `splitSegment`: a within-limit segment stays whole; an overlong one is
split into sentences, with still-overlong sentences hard cut. -/
def splitSegment (segment : Str) (maxChunkChars : Nat) : List Str :=
  if segment.length ≤ maxChunkChars then [segment]
  else
    (splitBySentence segment).flatMap fun sentence =>
      if sentence.length ≤ maxChunkChars then [sentence]
      else hardSplit sentence maxChunkChars

/-- Worker for `packSegments`: greedily grow `current` by appending the next
segment with a single-space joiner while the result stays within the limit;
otherwise close `current`, and hard cut a segment that alone exceeds the
limit, keeping its final slice as the new `current`. -/
def packGo (maxChunkChars : Nat) : List Str → Str → List Str
  | [], current => if current.isEmpty then [] else [current]
  | segment :: rest, current =>
    let candidate := if current.isEmpty then segment else current ++ ' ' :: segment
    if candidate.length ≤ maxChunkChars then packGo maxChunkChars rest candidate
    else
      let closed : List Str := if current.isEmpty then [] else [current]
      if segment.length ≤ maxChunkChars then
        closed ++ packGo maxChunkChars rest segment
      else
        let forced := hardSplit segment maxChunkChars
        closed ++ forced.dropLast ++
          packGo maxChunkChars rest ((forced.getLast?).getD [])

/-- `packSegments`: repack fragments greedily into segments as large as
possible without exceeding the limit. -/
def packSegments (segments : List Str) (maxChunkChars : Nat) : List Str :=
  packGo maxChunkChars segments []

/-- The line segments of a paragraph: split on newline runs, trim each
line, drop blank lines. -/
def lineSegmentsOf (paragraph : Str) : List Str :=
  ((splitRuns 1 paragraph).map trim).filter (fun t => !t.isEmpty)

/-- The segment list actually fed to sentence splitting: the line segments,
or the paragraph itself when no non-blank line exists. -/
def normalizedSegmentsOf (paragraph : Str) : List Str :=
  if 0 < (lineSegmentsOf paragraph).length then lineSegmentsOf paragraph
  else [paragraph]

/-- `splitOverlongParagraph`: line split, sentence split, hard cut, then
greedy repack. -/
def splitOverlongParagraph (paragraph : Str) (maxChunkChars : Nat) : List Str :=
  packSegments
    ((normalizedSegmentsOf paragraph).flatMap fun seg =>
      splitSegment seg maxChunkChars)
    maxChunkChars

/-- A paragraph-level translation task: 1-based sequence number, Arabic
source text, pre-computed sub-segmentation. -/
structure ParagraphUnit where
  id : Nat
  ar : Str
  subChunks : List Str
  deriving DecidableEq, Repr

/-- `buildParagraphUnits`: number the paragraphs from 1 and pre-compute the
sub-segmentation of each oversized paragraph. -/
def buildParagraphUnits (text : Str) (maxChunkChars : Nat) :
    List ParagraphUnit :=
  (splitIntoParagraphs text).enum.map fun ip =>
    if ip.2.length ≤ maxChunkChars then
      { id := ip.1 + 1, ar := ip.2, subChunks := [ip.2] }
    else
      { id := ip.1 + 1, ar := ip.2,
        subChunks := splitOverlongParagraph ip.2 maxChunkChars }

/-! ### Sub-segment length bound (claim C7) -/

theorem hardSplitGo_flatten (fuel : Nat) :
    ∀ (s : Str) (m : Nat), (hardSplitGo fuel s m).flatten = s := by
  induction fuel with
  | zero =>
    intro s m
    by_cases h : s.isEmpty = true
    · simp [hardSplitGo, h, List.isEmpty_iff.mp h]
    · simp [hardSplitGo, h]
  | succ fuel ih =>
    intro s m
    by_cases h : s.isEmpty = true
    · simp [hardSplitGo, h, List.isEmpty_iff.mp h]
    · simp [hardSplitGo, h, ih]

theorem hardSplit_flatten (s : Str) (m : Nat) : (hardSplit s m).flatten = s :=
  hardSplitGo_flatten s.length s m

theorem hardSplitGo_length_le {m : Nat} (hm : 1 ≤ m) (fuel : Nat) :
    ∀ (s : Str), s.length ≤ fuel →
      ∀ c ∈ hardSplitGo fuel s m, c.length ≤ m := by
  induction fuel with
  | zero =>
    intro s hs c hc
    have : s = [] := List.length_eq_zero.mp (Nat.le_zero.mp hs)
    subst this
    simp [hardSplitGo] at hc
  | succ fuel ih =>
    intro s hs c hc
    by_cases h : s.isEmpty = true
    · simp [hardSplitGo, h] at hc
    · rw [hardSplitGo, if_neg h] at hc
      rcases List.mem_cons.mp hc with rfl | hc
      · simp
      · refine ih (s.drop m) ?_ c hc
        have hne : s ≠ [] := fun hn => h (by simp [hn])
        have : 1 ≤ s.length := by
          cases s with
          | nil => exact absurd rfl hne
          | cons a t => simp
        simp only [List.length_drop]
        omega

theorem hardSplit_length_le {m : Nat} (hm : 1 ≤ m) (s : Str) :
    ∀ c ∈ hardSplit s m, c.length ≤ m :=
  hardSplitGo_length_le hm s.length s Nat.le.refl

theorem hardSplit_ne_nil {s : Str} (hs : s ≠ []) (m : Nat) :
    hardSplit s m ≠ [] := by
  unfold hardSplit
  cases s with
  | nil => exact absurd rfl hs
  | cons a t => simp [hardSplitGo]

theorem packGo_length_le {m : Nat} (hm : 1 ≤ m) :
    ∀ (segs : List Str) (cur : Str), cur.length ≤ m →
      ∀ c ∈ packGo m segs cur, c.length ≤ m := by
  intro segs
  induction segs with
  | nil =>
    intro cur hcur c hc
    by_cases h : cur.isEmpty = true
    · simp [packGo, h] at hc
    · simp only [packGo, if_neg h, List.mem_singleton] at hc
      exact hc ▸ hcur
  | cons seg rest ih =>
    intro cur hcur c hc
    simp only [packGo] at hc
    by_cases hcand :
        (if cur.isEmpty = true then seg else cur ++ ' ' :: seg).length ≤ m
    · rw [if_pos hcand] at hc
      exact ih _ hcand c hc
    · rw [if_neg hcand] at hc
      have hclosed : ∀ d ∈ (if cur.isEmpty = true then ([] : List Str)
          else [cur]), d.length ≤ m := by
        intro d hd
        by_cases h : cur.isEmpty = true <;> simp [h] at hd
        exact hd ▸ hcur
      by_cases hseg : seg.length ≤ m
      · rw [if_pos hseg] at hc
        rcases List.mem_append.mp hc with hc | hc
        · exact hclosed c hc
        · exact ih seg hseg c hc
      · rw [if_neg hseg] at hc
        rcases List.mem_append.mp hc with hc | hc
        · rcases List.mem_append.mp hc with hc | hc
          · exact hclosed c hc
          · exact hardSplit_length_le hm seg c (List.dropLast_subset _ hc)
        · refine ih _ ?_ c hc
          cases hl : (hardSplit seg m).getLast? with
          | none => simp
          | some x =>
            simpa [hl] using
              hardSplit_length_le hm seg x (List.mem_of_getLast?_eq_some hl)

theorem packSegments_length_le {m : Nat} (hm : 1 ≤ m) (segs : List Str) :
    ∀ c ∈ packSegments segs m, c.length ≤ m :=
  packGo_length_le hm segs [] (by simp)

/-- C7: for every paragraph whose length exceeds a positive configured
limit, every element of the unit's pre-computed sub-segmentation
(`subChunks`) has length at most the limit. -/
theorem claimC7 (text : Str) (maxChunkChars : Nat) (u : ParagraphUnit)
    (c : Str) (hm : 1 ≤ maxChunkChars)
    (hu : u ∈ buildParagraphUnits text maxChunkChars)
    (hlong : maxChunkChars < u.ar.length) (hc : c ∈ u.subChunks) :
    c.length ≤ maxChunkChars := by
  obtain ⟨ip, _, heq⟩ := List.mem_map.mp hu
  by_cases hle : ip.2.length ≤ maxChunkChars
  · rw [if_pos hle] at heq
    rw [← heq] at hlong
    exact absurd hlong (by simpa using hle)
  · rw [if_neg hle] at heq
    rw [← heq] at hc
    exact packSegments_length_le hm _ c hc

/-- Witness for C7 at the concrete paragraph `"abcde"` with limit 2. -/
theorem claimC7_witness : (str "ab").length ≤ 2 :=
  claimC7 (str "abcde") 2 ⟨1, str "abcde", [str "ab", str "cd", str "e"]⟩
    (str "ab") (by decide) (by decide) (by decide) (by decide)

/-! ### Content preservation of the sub-segmentation (claim C6) -/

theorem stripWs_append (a b : Str) :
    stripWs (a ++ b) = stripWs a ++ stripWs b := by
  simp [stripWs]

theorem stripWs_nil : stripWs [] = [] := rfl

theorem stripWs_flatten (l : List Str) :
    stripWs l.flatten = (l.map stripWs).flatten := by
  rw [stripWs, List.filter_flatten]
  rfl

theorem stripWs_ws_nil {s : Str} (h : ∀ c ∈ s, isJsWs c = true) :
    stripWs s = [] := by
  rw [stripWs, List.filter_eq_nil_iff]
  intro c hc
  simp [h c hc]

theorem stripWs_cons_ws {c : Char} (h : isJsWs c = true) (s : Str) :
    stripWs (c :: s) = stripWs s := by
  simp [stripWs, List.filter_cons, h]

theorem stripWs_replicate_nl (n : Nat) :
    stripWs (List.replicate n '\n') = [] :=
  stripWs_ws_nil (by
    intro c hc
    rw [List.eq_of_mem_replicate hc]
    decide)

theorem stripWs_dropWhileWs (s : Str) :
    stripWs (s.dropWhile isJsWs) = stripWs s := by
  conv_rhs => rw [← List.takeWhile_append_dropWhile (p := isJsWs) (l := s)]
  rw [stripWs_append,
    stripWs_ws_nil (fun c hc => List.mem_takeWhile_imp hc), List.nil_append]

theorem stripWs_reverse (s : Str) :
    stripWs s.reverse = (stripWs s).reverse := by
  simp [stripWs]

theorem stripWs_trim (s : Str) : stripWs (trim s) = stripWs s := by
  unfold trim
  rw [stripWs_reverse, stripWs_dropWhileWs, stripWs_reverse,
    List.reverse_reverse, stripWs_dropWhileWs]

theorem splitRunsGo_strip (k : Nat) :
    ∀ (s cur : Str) (pending : Nat),
      ((splitRunsGo k s cur pending).map stripWs).flatten =
        stripWs cur.reverse ++ stripWs s := by
  intro s
  induction s with
  | nil =>
    intro cur pending
    by_cases h : k ≤ pending <;>
      simp [splitRunsGo, h, stripWs_append, stripWs_replicate_nl, stripWs_nil]
  | cons c cs ih =>
    intro cur pending
    rw [splitRunsGo]
    by_cases h1 : c = '\n'
    · rw [if_pos h1, ih]
      subst h1
      rw [stripWs_cons_ws (by decide)]
    · rw [if_neg h1]
      by_cases h2 : k ≤ pending
      · rw [if_pos h2]
        simp only [List.map_cons, List.flatten_cons, ih]
        rw [show c :: cs = [c] ++ cs from rfl, stripWs_append]
        simp [List.append_assoc]
      · rw [if_neg h2, ih]
        rw [show c :: cs = [c] ++ cs from rfl, stripWs_append]
        simp [stripWs_append, stripWs_replicate_nl, List.append_assoc]

theorem flatten_map_filter_nonempty (l : List Str) :
    (((l.filter fun t => !t.isEmpty).map stripWs)).flatten =
      (l.map stripWs).flatten := by
  induction l with
  | nil => simp
  | cons a l ih =>
    by_cases h : a.isEmpty = true
    · simp [List.filter_cons, h, List.isEmpty_iff.mp h, ih, stripWs]
    · simp [List.filter_cons, h, ih]

theorem map_stripWs_trim (l : List Str) :
    (l.map trim).map stripWs = l.map stripWs := by
  rw [List.map_map]
  exact List.map_congr_left fun a _ => stripWs_trim a

theorem stripWs_flatten_lineSegmentsOf (p : Str) :
    ((lineSegmentsOf p).map stripWs).flatten = stripWs p := by
  unfold lineSegmentsOf
  rw [flatten_map_filter_nonempty, map_stripWs_trim]
  have h := splitRunsGo_strip 1 p [] 0
  simpa [splitRuns] using h

theorem sentenceMatchesGo_flatten :
    ∀ (fuel : Nat) (s : Str), s.length ≤ fuel →
      (sentenceMatchesGo fuel s).flatten = s.dropWhile isSentenceTerm := by
  intro fuel
  induction fuel with
  | zero =>
    intro s hs
    have : s = [] := List.length_eq_zero.mp (Nat.le_zero.mp hs)
    subst this
    simp [sentenceMatchesGo]
  | succ fuel ih =>
    intro s hs
    rw [sentenceMatchesGo]
    by_cases h : (s.dropWhile isSentenceTerm).isEmpty = true
    · simp [h, List.isEmpty_iff.mp h]
    · rw [if_neg h]
      simp only [List.flatten_cons]
      have hne : s.dropWhile isSentenceTerm ≠ [] := by
        intro hn
        exact h (by simp [hn])
      obtain ⟨a, t, hat⟩ := List.exists_cons_of_ne_nil hne
      have hterm : isSentenceTerm a = false := dropWhile_head_false hat
      have hbody :
          1 ≤ ((s.dropWhile isSentenceTerm).takeWhile
            fun c => !isSentenceTerm c).length := by
        rw [hat, List.takeWhile_cons_of_pos (by simp [hterm])]
        simp
      have hlen1 :
          ((s.dropWhile isSentenceTerm).takeWhile
              fun c => !isSentenceTerm c).length +
            ((s.dropWhile isSentenceTerm).dropWhile
              fun c => !isSentenceTerm c).length =
            (s.dropWhile isSentenceTerm).length := by
        rw [← List.length_append, List.takeWhile_append_dropWhile]
      have hlen2 :
          (((s.dropWhile isSentenceTerm).dropWhile
                fun c => !isSentenceTerm c).takeWhile isSentenceTerm).length +
            (((s.dropWhile isSentenceTerm).dropWhile
                fun c => !isSentenceTerm c).dropWhile
              isSentenceTerm).length =
            ((s.dropWhile isSentenceTerm).dropWhile
              fun c => !isSentenceTerm c).length := by
        rw [← List.length_append, List.takeWhile_append_dropWhile]
      have hlen3 :
          (s.takeWhile isSentenceTerm).length +
            (s.dropWhile isSentenceTerm).length = s.length := by
        rw [← List.length_append, List.takeWhile_append_dropWhile]
      rw [ih _ (by omega)]
      rw [dropWhile_dropWhile]
      rw [List.append_assoc, List.takeWhile_append_dropWhile,
        List.takeWhile_append_dropWhile]

theorem splitBySentence_strip {s : Str}
    (hhead : s.dropWhile isSentenceTerm = s) :
    ((splitBySentence s).map stripWs).flatten = stripWs s := by
  unfold splitBySentence
  by_cases h : (sentenceMatches s).isEmpty = true
  · simp [h]
  · rw [if_neg h, flatten_map_filter_nonempty, map_stripWs_trim,
      ← stripWs_flatten, sentenceMatches,
      sentenceMatchesGo_flatten s.length s Nat.le.refl, hhead]

theorem flatten_map_flatMap (l : List Str) (f : Str → List Str)
    (hf : ∀ st ∈ l, ((f st).map stripWs).flatten = stripWs st) :
    ((l.flatMap f).map stripWs).flatten = (l.map stripWs).flatten := by
  induction l with
  | nil => simp
  | cons a l ih =>
    simp only [List.flatMap_cons, List.map_append, List.flatten_append,
      List.map_cons, List.flatten_cons]
    rw [hf a (List.mem_cons_self a l),
      ih fun st hst => hf st (List.mem_cons_of_mem a hst)]

theorem splitSegment_strip {seg : Str} {m : Nat}
    (hhead : m < seg.length → seg.dropWhile isSentenceTerm = seg) :
    ((splitSegment seg m).map stripWs).flatten = stripWs seg := by
  unfold splitSegment
  by_cases hle : seg.length ≤ m
  · simp [hle]
  · rw [if_neg hle]
    rw [flatten_map_flatMap]
    · exact splitBySentence_strip (hhead (Nat.not_le.mp hle))
    · intro st _
      by_cases hst : st.length ≤ m
      · simp [hst]
      · rw [if_neg hst, ← stripWs_flatten, hardSplit_flatten]

theorem packGo_strip {m : Nat} (hm : 1 ≤ m) :
    ∀ (segs : List Str) (cur : Str),
      ((packGo m segs cur).map stripWs).flatten =
        stripWs cur ++ (segs.map stripWs).flatten := by
  intro segs
  induction segs with
  | nil =>
    intro cur
    by_cases h : cur.isEmpty = true
    · simp [packGo, h, List.isEmpty_iff.mp h, stripWs]
    · simp [packGo, h]
  | cons seg rest ih =>
    intro cur
    rw [packGo]
    by_cases hcand :
        (if cur.isEmpty = true then seg else cur ++ ' ' :: seg).length ≤ m
    · rw [if_pos hcand, ih]
      by_cases h : cur.isEmpty = true
      · simp [h, List.isEmpty_iff.mp h, stripWs]
      · rw [if_neg h, stripWs_append, stripWs_cons_ws (by decide)]
        simp [List.append_assoc]
    · rw [if_neg hcand]
      have hclosed :
          ((if cur.isEmpty = true then ([] : List Str) else [cur]).map
            stripWs).flatten = stripWs cur := by
        by_cases h : cur.isEmpty = true
        · simp [h, List.isEmpty_iff.mp h, stripWs]
        · simp [h]
      by_cases hseg : seg.length ≤ m
      · rw [if_pos hseg]
        simp only [List.map_append, List.flatten_append, hclosed, ih]
        simp [List.append_assoc]
      · rw [if_neg hseg]
        have hforced : hardSplit seg m ≠ [] := by
          refine hardSplit_ne_nil ?_ m
          intro hn
          rw [hn] at hseg
          simp at hseg
        have hlast :
            ((hardSplit seg m).getLast?).getD [] =
              (hardSplit seg m).getLast hforced := by
          rw [List.getLast?_eq_getLast _ hforced]
          rfl
        have hsplit :
            ((hardSplit seg m).dropLast.map stripWs).flatten ++
              stripWs ((hardSplit seg m).getLast hforced) = stripWs seg := by
          have h1 :
              (hardSplit seg m).dropLast ++
                [(hardSplit seg m).getLast hforced] = hardSplit seg m :=
            List.dropLast_concat_getLast hforced
          calc ((hardSplit seg m).dropLast.map stripWs).flatten ++
              stripWs ((hardSplit seg m).getLast hforced)
              = ((((hardSplit seg m).dropLast ++
                  [(hardSplit seg m).getLast hforced]).map stripWs)).flatten := by
                simp
            _ = stripWs seg := by
                rw [h1, ← stripWs_flatten, hardSplit_flatten]
        simp only [List.map_append, List.flatten_append, hclosed, ih, hlast,
          List.map_cons, List.flatten_cons]
        rw [← hsplit]
        simp [List.append_assoc]

/-- C6 counterexample input: a 251-character paragraph that begins with a
sentence terminator. -/
def longDotParagraph : Str := '.' :: List.replicate 250 'a'

set_option maxRecDepth 8000 in
/-- C6 as stated is false: for the paragraph `"." ++ "a"*250` and limit 200
(positive and exceeded by the paragraph), concatenating the produced
sub-segments loses the leading `'.'`, a non-whitespace character, because the
sentence-splitting regex `/[^.!?؟؛]+[.!?؟؛]*/g` cannot match a leading
terminator run, which is therefore dropped. -/
theorem claimC6_counterexample :
    1 ≤ 200 ∧ 200 < longDotParagraph.length ∧
    stripWs (splitOverlongParagraph longDotParagraph 200).flatten ≠
      stripWs longDotParagraph := by decide

/-- C6 (amended): for every paragraph exceeding a positive limit,
concatenating the produced sub-segments reproduces the paragraph's content
modulo whitespace, provided no over-limit segment of the paragraph begins
with a sentence-terminal punctuation character (such a leading terminator
run is dropped by the sentence regex). -/
theorem claimC6_amended (paragraph : Str) (maxChunkChars : Nat)
    (hm : 1 ≤ maxChunkChars) (hlong : maxChunkChars < paragraph.length)
    (hheads : ∀ seg ∈ normalizedSegmentsOf paragraph,
      maxChunkChars < seg.length → seg.dropWhile isSentenceTerm = seg) :
    stripWs (splitOverlongParagraph paragraph maxChunkChars).flatten =
      stripWs paragraph := by
  unfold splitOverlongParagraph packSegments
  rw [stripWs_flatten, packGo_strip hm]
  rw [show (stripWs [] = []) from rfl, List.nil_append]
  rw [flatten_map_flatMap _ _
    fun seg hs => splitSegment_strip (hheads seg hs)]
  unfold normalizedSegmentsOf
  by_cases h : 0 < (lineSegmentsOf paragraph).length
  · rw [if_pos h]
    exact stripWs_flatten_lineSegmentsOf paragraph
  · rw [if_neg h]
    simp

/-- Witness for the amended C6 on the concrete paragraph `"abcde"` with
limit 2. -/
theorem claimC6_witness :
    stripWs (splitOverlongParagraph (str "abcde") 2).flatten =
      stripWs (str "abcde") :=
  claimC6_amended (str "abcde") 2 (by decide) (by decide) (by decide)

/-! ## Strict JSON extraction and validation (translator.js)

`JSON.parse` is modelled by a strict recursive-descent parser over the JSON
grammar (objects with last-wins duplicate keys keeping first position,
arrays, strings with escapes, strict number syntax, literals, and the four
JSON whitespace characters).  `\uXXXX` escapes map through `Char.ofNat`;
UTF-16 surrogate halves, which `List Char` cannot represent, fall to the
default character — no claim depends on them. -/

/-- A parsed JSON value.  Number values are kept as lexemes: validation only
ever inspects whether a value is a string. -/
inductive Json where
  | null
  | bool (b : Bool)
  | num (lexeme : Str)
  | str (s : Str)
  | arr (elements : List Json)
  | obj (members : List (Str × Json))

/-- The four whitespace characters of the JSON grammar. -/
def isJsonWs (c : Char) : Bool :=
  c == ' ' || c == '\t' || c == '\n' || c == '\r'

/-- Skip JSON whitespace. -/
def skipJsonWs (s : Str) : Str := s.dropWhile isJsonWs

/-- Value of one hexadecimal digit. -/
def hexVal? (c : Char) : Option Nat :=
  if '0' ≤ c ∧ c ≤ '9' then some (c.toNat - '0'.toNat)
  else if 'a' ≤ c ∧ c ≤ 'f' then some (c.toNat - 'a'.toNat + 10)
  else if 'A' ≤ c ∧ c ≤ 'F' then some (c.toNat - 'A'.toNat + 10)
  else none

/-- The single-character JSON string escapes. -/
def escChar? (c : Char) : Option Char :=
  if c = '"' then some '"'
  else if c = '\\' then some '\\'
  else if c = '/' then some '/'
  else if c = 'b' then some '\x08'
  else if c = 'f' then some '\x0c'
  else if c = 'n' then some '\n'
  else if c = 'r' then some '\r'
  else if c = 't' then some '\t'
  else none

/-- Parse the body of a JSON string after the opening quote, returning the
decoded characters and the remainder after the closing quote.  Unescaped
control characters are rejected, as in `JSON.parse`. -/
def parseStringBody : Str → Option (Str × Str)
  | [] => none
  | '"' :: rest => some ([], rest)
  | '\\' :: 'u' :: h1 :: h2 :: h3 :: h4 :: rest =>
    match hexVal? h1, hexVal? h2, hexVal? h3, hexVal? h4 with
    | some v1, some v2, some v3, some v4 =>
      match parseStringBody rest with
      | some (out, rem) =>
        some (Char.ofNat (((v1 * 16 + v2) * 16 + v3) * 16 + v4) :: out, rem)
      | none => none
    | _, _, _, _ => none
  | '\\' :: c :: rest =>
    match escChar? c with
    | some e =>
      match parseStringBody rest with
      | some (out, rem) => some (e :: out, rem)
      | none => none
    | none => none
  | c :: rest =>
    if c.toNat < 0x20 then none
    else
      match parseStringBody rest with
      | some (out, rem) => some (c :: out, rem)
      | none => none

/-- Parse the optional fraction part of a JSON number. -/
def parseFrac (s : Str) : Option (Str × Str) :=
  match s with
  | '.' :: rest =>
    let ds := rest.takeWhile Char.isDigit
    if ds.isEmpty then none
    else some ('.' :: ds, rest.dropWhile Char.isDigit)
  | _ => some ([], s)

/-- Parse the optional exponent part of a JSON number. -/
def parseExp (s : Str) : Option (Str × Str) :=
  match s with
  | c :: rest =>
    if c = 'e' ∨ c = 'E' then
      let (sign, rest2) :=
        match rest with
        | d :: rest2 => if d = '+' ∨ d = '-' then ([d], rest2) else ([], rest)
        | [] => ([], rest)
      let ds := rest2.takeWhile Char.isDigit
      if ds.isEmpty then none
      else some (c :: (sign ++ ds), rest2.dropWhile Char.isDigit)
    else some ([], s)
  | [] => some ([], s)

/-- Parse a JSON number (strict grammar: no leading zeros, no bare sign),
returning its lexeme and the remainder. -/
def parseNumber? (s : Str) : Option (Str × Str) := do
  let (sign, s1) :=
    match s with
    | '-' :: rest => ((['-'] : Str), rest)
    | _ => (([] : Str), s)
  let (intPart, s2) ←
    match s1 with
    | '0' :: rest => some ((['0'] : Str), rest)
    | c :: _ =>
      if c.isDigit then
        some (s1.takeWhile Char.isDigit, s1.dropWhile Char.isDigit)
      else none
    | [] => none
  let (fracPart, s3) ← parseFrac s2
  let (expPart, s4) ← parseExp s3
  some (sign ++ intPart ++ fracPart ++ expPart, s4)

/-- Consume an expected literal tail (`rue`, `alse`, `ull`). -/
def stripLit (lit : Str) (s : Str) : Option Str :=
  if lit.isPrefixOf s then some (s.drop lit.length) else none

/-- Insert a member into an object under JavaScript semantics: a duplicate
key overwrites the value but keeps its first position. -/
def objInsert : List (Str × Json) → Str → Json → List (Str × Json)
  | [], k, v => [(k, v)]
  | (k0, v0) :: rest, k, v =>
    if k0 = k then (k0, v) :: rest else (k0, v0) :: objInsert rest k v

mutual

/-- Parse one JSON value (fuel-driven recursive descent). -/
def parseValue : Nat → Str → Option (Json × Str)
  | 0, _ => none
  | fuel + 1, s =>
    match skipJsonWs s with
    | [] => none
    | c :: rest =>
      if c = '\x7b' then parseMembers fuel rest []
      else if c = '[' then parseElements fuel rest []
      else if c = '"' then
        match parseStringBody rest with
        | some (out, rem) => some (.str out, rem)
        | none => none
      else if c = 't' then
        match stripLit (str "rue") rest with
        | some rem => some (.bool true, rem)
        | none => none
      else if c = 'f' then
        match stripLit (str "alse") rest with
        | some rem => some (.bool false, rem)
        | none => none
      else if c = 'n' then
        match stripLit (str "ull") rest with
        | some rem => some (.null, rem)
        | none => none
      else if c = '-' ∨ c.isDigit then
        match parseNumber? (c :: rest) with
        | some (lex, rem) => some (.num lex, rem)
        | none => none
      else none

/-- Parse array elements after `[` or after a comma. -/
def parseElements : Nat → Str → List Json → Option (Json × Str)
  | 0, _, _ => none
  | fuel + 1, s, acc =>
    match skipJsonWs s with
    | ']' :: rem => if acc.isEmpty then some (.arr [], rem) else none
    | _ =>
      match parseValue fuel s with
      | some (v, rem) =>
        match skipJsonWs rem with
        | ',' :: rem2 => parseElements fuel rem2 (acc ++ [v])
        | ']' :: rem2 => some (.arr (acc ++ [v]), rem2)
        | _ => none
      | none => none

/-- Parse object members after `{` or after a comma. -/
def parseMembers : Nat → Str → List (Str × Json) → Option (Json × Str)
  | 0, _, _ => none
  | fuel + 1, s, acc =>
    match skipJsonWs s with
    | '\x7d' :: rem => if acc.isEmpty then some (.obj [], rem) else none
    | '"' :: rest =>
      match parseStringBody rest with
      | some (key, rem) =>
        match skipJsonWs rem with
        | ':' :: rem2 =>
          match parseValue fuel rem2 with
          | some (v, rem3) =>
            match skipJsonWs rem3 with
            | ',' :: rem4 => parseMembers fuel rem4 (objInsert acc key v)
            | '\x7d' :: rem4 => some (.obj (objInsert acc key v), rem4)
            | _ => none
          | none => none
        | _ => none
      | none => none
    | _ => none

end

/-- `JSON.parse`: parse a complete JSON text, allowing only whitespace
around the value.  The fuel bound is generous; every concrete evaluation in
this file terminates well within it. -/
def jsonParse (s : Str) : Option Json :=
  match parseValue (2 * s.length + 2) s with
  | some (j, rest) => if (skipJsonWs rest).isEmpty then some j else none
  | none => none

/-- The expected single object key, `"fa"`. -/
def strFa : Str := str "fa"

/-- Extract the characters of a JSON string value. -/
def getString? : Json → Option Str
  | .str s => some s
  | _ => none

/-- `payload.fa.every(item => typeof item === 'string')` combined with the
extraction of the strings. -/
def allStrings? : List Json → Option (List Str)
  | [] => some []
  | j :: rest =>
    match getString? j, allStrings? rest with
    | some s, some ss => some (s :: ss)
    | _, _ => none

/-- The array-side checks of `validateFaArrayObject`: the single key's value
must be an array of exactly `expectedLength` strings, which are trimmed. -/
def faArray? (v : Json) (expectedLength : Nat) : Option (List Str) :=
  match v with
  | .arr elements =>
    if elements.length = expectedLength then
      match allStrings? elements with
      | some strs => some (strs.map trim)
      | none => none
    else none
  | .null => none
  | .bool _ => none
  | .num _ => none
  | .str _ => none
  | .obj _ => none

/-- `validateFaArrayObject`: accept only an object with exactly the single
key `fa` holding an array of exactly `expectedLength` strings; the accepted
strings are trimmed. -/
def validateFaArrayObject (payload : Json) (expectedLength : Nat) :
    Option (List Str) :=
  match payload with
  | .null | .bool _ | .num _ | .str _ | .arr _ => none
  | .obj [] => none
  | .obj ((k, v) :: kvTail) =>
    match kvTail with
    | _ :: _ => none
    | [] => if k = strFa then faArray? v expectedLength else none

/-- The fence delimiter of the extraction regex. -/
def tripleTick : Str := str "```"

/-- First index at which `pat` occurs in the scanned string. -/
def findSubstrGo (pat : Str) : Str → Nat → Option Nat
  | [], i => if pat.isEmpty then some i else none
  | c :: rest, i =>
    if pat.isPrefixOf (c :: rest) then some i
    else findSubstrGo pat rest (i + 1)

/-- First index of a substring occurrence. -/
def findSubstr (s pat : Str) : Option Nat := findSubstrGo pat s 0

/-- Drop a leading case-insensitive `json` language tag. -/
def stripJsonTag (s : Str) : Str :=
  match s with
  | c1 :: c2 :: c3 :: c4 :: rest =>
    if c1.toLower = 'j' ∧ c2.toLower = 's' ∧ c3.toLower = 'o' ∧
        c4.toLower = 'n' then rest
    else s
  | _ => s

/-- The capture of the first match of `/```(?:json)?\s*([\s\S]*?)\s*```/i`:
content from the first fence (after an optional `json` tag) up to the next
fence, with the whitespace margins stripped by the surrounding `\s*`
(the same character class as `trim`). -/
def fencedCapture (text : Str) : Option Str :=
  match findSubstr text tripleTick with
  | none => none
  | some i =>
    let rest' := stripJsonTag (text.drop (i + 3))
    match findSubstr rest' tripleTick with
    | none => none
    | some j => some (trim (rest'.take j))

/-- The slice from the first `{` to the last `}`, when the latter comes
after the former. -/
def braceSlice (text : Str) : List Str :=
  match text.findIdx? (fun c => c = '\x7b') with
  | none => []
  | some i =>
    match text.reverse.findIdx? (fun c => c = '\x7d') with
    | none => []
    | some rj =>
      let j := text.length - 1 - rj
      if i < j then [(text.drop i).take (j - i + 1)] else []

/-- The extraction candidates, in attempt order: the whole trimmed response,
the contents of the first fenced code block when present and non-empty, the
first-`{`-to-last-`}` slice when applicable. -/
def candidatesOf (raw : Str) : List Str :=
  let text := trim raw
  [text] ++
    (match fencedCapture text with
     | some cap => if cap.isEmpty then [] else [cap]
     | none => []) ++
    braceSlice text

/-- Parse one candidate and validate its shape. -/
def tryCandidate (candidate : Str) (expectedLength : Nat) :
    Option (List Str) :=
  match jsonParse candidate with
  | some j => validateFaArrayObject j expectedLength
  | none => none

/-- Accept the first candidate that parses and validates. -/
def firstValidCandidate : List Str → Nat → Option (List Str)
  | [], _ => none
  | c :: cs, n =>
    match tryCandidate c n with
    | some v => some v
    | none => firstValidCandidate cs n

/-- `safeParseJson`: extraction chain over the raw model response. -/
def safeParseJson (rawText : Str) (expectedLength : Nat) :
    Option (List Str) :=
  firstValidCandidate (candidatesOf rawText) expectedLength

/-! ### Response validation properties (claim C5) -/

theorem jsonParse_nil : jsonParse ([] : Str) = none := rfl

theorem allStrings?_length :
    ∀ {elements : List Json} {strs : List Str},
      allStrings? elements = some strs → strs.length = elements.length := by
  intro elements
  induction elements with
  | nil =>
    intro strs h
    simp [allStrings?] at h
    simp [← h]
  | cons j rest ih =>
    intro strs h
    rw [allStrings?] at h
    cases hj : getString? j with
    | none => rw [hj] at h; simp at h
    | some s =>
      rw [hj] at h
      cases hr : allStrings? rest with
      | none => rw [hr] at h; simp at h
      | some ss =>
        rw [hr] at h
        simp at h
        simp [← h, ih hr]

theorem validateFaArrayObject_shape {j : Json} {n : Nat} {fa : List Str}
    (h : validateFaArrayObject j n = some fa) :
    fa.length = n ∧ ∀ x ∈ fa, trim x = x := by
  cases j with
  | null => simp [validateFaArrayObject] at h
  | bool b => simp [validateFaArrayObject] at h
  | num lex => simp [validateFaArrayObject] at h
  | str s => simp [validateFaArrayObject] at h
  | arr els => simp [validateFaArrayObject] at h
  | obj members =>
    match members with
    | [] => simp [validateFaArrayObject] at h
    | (k, v) :: (kv2 :: kvTail) => simp [validateFaArrayObject] at h
    | [(k, v)] =>
      simp only [validateFaArrayObject] at h
      by_cases hk : k = strFa
      · rw [if_pos hk] at h
        cases v with
        | null => simp [faArray?] at h
        | bool b => simp [faArray?] at h
        | num lex => simp [faArray?] at h
        | str s => simp [faArray?] at h
        | obj mems2 => simp [faArray?] at h
        | arr elements =>
          rw [faArray?] at h
          by_cases hlen : elements.length = n
          · rw [if_pos hlen] at h
            cases hs : allStrings? elements with
            | none => rw [hs] at h; simp at h
            | some strs =>
              rw [hs] at h
              simp at h
              subst h
              refine ⟨by simp [allStrings?_length hs, hlen], ?_⟩
              intro x hx
              obtain ⟨y, _, rfl⟩ := List.mem_map.mp hx
              exact trim_trim y
          · rw [if_neg hlen] at h
            simp at h
      · rw [if_neg hk] at h
        simp at h

theorem tryCandidate_shape {c : Str} {n : Nat} {fa : List Str}
    (h : tryCandidate c n = some fa) :
    fa.length = n ∧ ∀ x ∈ fa, trim x = x := by
  rw [tryCandidate] at h
  cases hj : jsonParse c with
  | none => rw [hj] at h; simp at h
  | some j =>
    rw [hj] at h
    exact validateFaArrayObject_shape h

theorem firstValidCandidate_some :
    ∀ {l : List Str} {n : Nat} {fa : List Str},
      firstValidCandidate l n = some fa →
        ∃ c ∈ l, tryCandidate c n = some fa := by
  intro l
  induction l with
  | nil => intro n fa h; simp [firstValidCandidate] at h
  | cons c cs ih =>
    intro n fa h
    rw [firstValidCandidate] at h
    cases hc : tryCandidate c n with
    | some v =>
      rw [hc] at h
      simp at h
      exact ⟨c, List.mem_cons_self c cs, by rw [hc, h]⟩
    | none =>
      rw [hc] at h
      obtain ⟨d, hd, hdv⟩ := ih h
      exact ⟨d, List.mem_cons_of_mem c hd, hdv⟩

theorem parseValue_backtick (fuel : Nat) {s rest : Str}
    (h : skipJsonWs s = '\x60' :: rest) : parseValue fuel s = none := by
  cases fuel with
  | zero => rw [parseValue]
  | succ fuel =>
    rw [parseValue, h]
    simp

theorem jsonParse_backtick {s rest : Str} (h : skipJsonWs s = '\x60' :: rest) :
    jsonParse s = none := by
  rw [jsonParse, parseValue_backtick _ h]

theorem tryCandidate_backtick {s rest : Str} {n : Nat}
    (h : skipJsonWs s = '\x60' :: rest) : tryCandidate s n = none := by
  rw [tryCandidate, jsonParse_backtick h]

theorem trim_cons_ws {c : Char} (h : isJsWs c = true) (s : Str) :
    trim (c :: s) = trim s := by
  unfold trim
  rw [List.dropWhile_cons_of_pos h]

theorem trim_concat_ws {c : Char} (h : isJsWs c = true) (s : Str) :
    trim (s ++ [c]) = trim s := by
  unfold trim
  rw [List.dropWhile_append]
  by_cases he : (s.dropWhile isJsWs).isEmpty = true
  · rw [if_pos he]
    rw [List.isEmpty_iff.mp he]
    simp [List.dropWhile_cons_of_pos h]
  · rw [if_neg he]
    rw [List.reverse_append]
    simp only [List.reverse_cons, List.reverse_nil, List.nil_append,
      List.singleton_append]
    rw [List.dropWhile_cons_of_pos h]

theorem trim_wrap_nl (s : Str) : trim ('\n' :: (s ++ ['\n'])) = trim s := by
  rw [trim_cons_ws (by decide), trim_concat_ws (by decide)]

theorem trim_eq_self_of_ends {a b : Char} {mid : Str}
    (ha : isJsWs a = false) (hb : isJsWs b = false) :
    trim (a :: (mid ++ [b])) = a :: (mid ++ [b]) := by
  unfold trim
  rw [dropWhile_of_head_false ha]
  rw [show (a :: (mid ++ [b])).reverse = b :: (mid.reverse ++ [a]) by simp]
  rw [dropWhile_of_head_false hb]
  simp

theorem stripJsonTag_json (rest : Str) :
    stripJsonTag ('j' :: 's' :: 'o' :: 'n' :: rest) = rest := rfl

theorem findSubstrGo_tick_append {a : Str} (h : '\x60' ∉ a) (t : Str) :
    ∀ i, findSubstrGo tripleTick (a ++ ('\x60' :: '\x60' :: '\x60' :: t)) i =
      some (i + a.length) := by
  induction a with
  | nil =>
    intro i
    rw [List.nil_append, findSubstrGo, if_pos]
    · simp
    · show tripleTick.isPrefixOf _ = true
      rw [show tripleTick = '\x60' :: '\x60' :: '\x60' :: [] from rfl]
      simp [List.isPrefixOf]
  | cons c a' ih =>
    intro i
    rw [List.cons_append, findSubstrGo, if_neg, ih (fun hm => h (by simp [hm]))]
    · simp
      omega
    · show ¬ tripleTick.isPrefixOf _ = true
      rw [show tripleTick = '\x60' :: '\x60' :: '\x60' :: [] from rfl]
      have hc : c ≠ '\x60' := fun hc => h (by simp [hc])
      simp [List.isPrefixOf]
      intro hcc
      exact absurd hcc.symm hc

theorem fencedCapture_fenced {inner : Str} (h : '\x60' ∉ inner) :
    fencedCapture (str "```json\n" ++ inner ++ str "\n```") =
      some (trim inner) := by
  have e1 : str "```json\n" = '\x60' :: '\x60' :: '\x60' :: 'j' :: 's' :: 'o' :: 'n' ::
      '\n' :: [] := rfl
  have e2 : str "\n```" = '\n' :: '\x60' :: '\x60' :: '\x60' :: [] := rfl
  have hraw : str "```json\n" ++ inner ++ str "\n```" =
      ([] : Str) ++ ('\x60' :: '\x60' :: '\x60' ::
        ('j' :: 's' :: 'o' :: 'n' :: '\n' ::
          (inner ++ ('\n' :: '\x60' :: '\x60' :: '\x60' :: [])))) := by
    rw [e1, e2]
    simp
  rw [fencedCapture, hraw]
  rw [show findSubstr
      (([] : Str) ++ ('\x60' :: '\x60' :: '\x60' ::
        ('j' :: 's' :: 'o' :: 'n' :: '\n' ::
          (inner ++ ('\n' :: '\x60' :: '\x60' :: '\x60' :: []))))) tripleTick =
      some 0 by
    rw [findSubstr]
    exact findSubstrGo_tick_append (by simp) _ 0]
  simp only [List.nil_append, List.drop_succ_cons, List.drop_zero]
  rw [stripJsonTag_json]
  have hwrap : '\n' :: (inner ++ ('\n' :: '\x60' :: '\x60' :: '\x60' :: [])) =
      ('\n' :: (inner ++ ['\n'])) ++ ('\x60' :: '\x60' :: '\x60' :: []) := by
    simp
  rw [hwrap, findSubstr,
    findSubstrGo_tick_append (a := '\n' :: (inner ++ ['\n']))
      (by
        intro hm
        rcases List.mem_cons.mp hm with hm | hm
        · exact absurd hm.symm (by decide)
        · rcases List.mem_append.mp hm with hm | hm
          · exact h hm
          · exact absurd (List.mem_singleton.mp hm).symm (by decide)) [] 0]
  show some (trim (List.take (0 + ('\n' :: (inner ++ ['\n'])).length)
      (('\n' :: (inner ++ ['\n'])) ++ ('\x60' :: '\x60' :: '\x60' :: ([] : Str))))) =
    some (trim inner)
  rw [show 0 + ('\n' :: (inner ++ ['\n'])).length =
      ('\n' :: (inner ++ ['\n'])).length from Nat.zero_add _]
  rw [List.take_left, trim_wrap_nl]

theorem firstValidCandidate_cons_some {c : Str} {cs : List Str} {n : Nat}
    {v : List Str} (h : tryCandidate c n = some v) :
    firstValidCandidate (c :: cs) n = some v := by
  rw [firstValidCandidate, h]

theorem firstValidCandidate_cons_none {c : Str} {cs : List Str} {n : Nat}
    (h : tryCandidate c n = none) :
    firstValidCandidate (c :: cs) n = firstValidCandidate cs n := by
  rw [firstValidCandidate, h]

theorem candidatesOf_eq (raw : Str) :
    candidatesOf raw = trim raw ::
      ((match fencedCapture (trim raw) with
        | some cap => if cap.isEmpty then [] else [cap]
        | none => []) ++ braceSlice (trim raw)) := rfl

/-- C5: response validation tries candidates in order — the whole trimmed
response, then the contents of the first fenced code block when present,
then the substring from the first `\x7b` to the last `\x7d` — and accepts the
first candidate that parses to an object with exactly one key `fa` holding
an array of exactly the expected length in which every element is a string,
trimming accepted values.  In particular (third conjunct) a response wrapped
in a fenced code block containing valid JSON of the correct shape is
accepted on that attempt, so no retry is triggered, and (fourth conjunct)
any accepted list has the expected length with every element trimmed. -/
theorem claimC5 (raw : Str) (n : Nat) :
    (safeParseJson raw n = firstValidCandidate (candidatesOf raw) n) ∧
    (∀ fa, tryCandidate (trim raw) n = some fa →
      safeParseJson raw n = some fa) ∧
    (∀ inner fa, '\x60' ∉ inner → tryCandidate (trim inner) n = some fa →
      safeParseJson (str "```json\n" ++ inner ++ str "\n```") n = some fa) ∧
    (∀ fa, safeParseJson raw n = some fa →
      fa.length = n ∧ ∀ x ∈ fa, trim x = x) := by
  refine ⟨rfl, ?_, ?_, ?_⟩
  · intro fa h
    rw [safeParseJson, candidatesOf_eq]
    exact firstValidCandidate_cons_some h
  · intro inner fa hbt h
    have e1 : str "```json\n" =
        '\x60' :: '\x60' :: '\x60' :: 'j' :: 's' :: 'o' :: 'n' :: '\n' :: [] := rfl
    have e2 : str "\n```" = '\n' :: '\x60' :: '\x60' :: '\x60' :: [] := rfl
    have hAshape : str "```json\n" ++ inner ++ str "\n```" =
        '\x60' :: (('\x60' :: '\x60' :: 'j' :: 's' :: 'o' :: 'n' :: '\n' ::
          (inner ++ ['\n', '\x60', '\x60'])) ++ ['\x60']) := by
      rw [e1, e2]
      simp
    have htrim : trim (str "```json\n" ++ inner ++ str "\n```") =
        str "```json\n" ++ inner ++ str "\n```" := by
      conv_lhs => rw [hAshape]
      rw [trim_eq_self_of_ends (by decide) (by decide), ← hAshape]
    have hskip : skipJsonWs (str "```json\n" ++ inner ++ str "\n```") =
        '\x60' :: (('\x60' :: '\x60' :: 'j' :: 's' :: 'o' :: 'n' :: '\n' ::
          (inner ++ ['\n', '\x60', '\x60'])) ++ ['\x60']) := by
      rw [hAshape]
      exact dropWhile_of_head_false (by decide)
    have hcand1 :
        tryCandidate (trim (str "```json\n" ++ inner ++ str "\n```")) n =
          none := by
      rw [htrim]
      exact tryCandidate_backtick hskip
    have htne : ¬ (trim inner).isEmpty = true := by
      intro hc
      rw [List.isEmpty_iff.mp hc, tryCandidate, jsonParse_nil] at h
      simp at h
    have hfen :
        fencedCapture (trim (str "```json\n" ++ inner ++ str "\n```")) =
          some (trim inner) := by
      rw [htrim]
      exact fencedCapture_fenced hbt
    have hcands : candidatesOf (str "```json\n" ++ inner ++ str "\n```") =
        trim (str "```json\n" ++ inner ++ str "\n```") :: trim inner ::
          braceSlice (trim (str "```json\n" ++ inner ++ str "\n```")) := by
      rw [candidatesOf_eq, hfen]
      show _ :: ((if (trim inner).isEmpty = true then [] else [trim inner]) ++
        _) = _
      rw [if_neg htne]
      rfl
    rw [safeParseJson, hcands, firstValidCandidate_cons_none hcand1,
      firstValidCandidate_cons_some h]
  · intro fa h
    rw [safeParseJson] at h
    obtain ⟨c, _, hc⟩ := firstValidCandidate_some h
    exact tryCandidate_shape hc

/-- Witness for C5: a concrete fenced response with valid JSON of the
correct shape is accepted, and the accepted value is trimmed. -/
theorem claimC5_witness :
    safeParseJson
      (str "```json\n" ++ str "\x7b\"fa\": [\"ok \"]\x7d" ++ str "\n```") 1 =
      some [str "ok"] :=
  (claimC5 (str "") 1).2.2.1 (str "\x7b\"fa\": [\"ok \"]\x7d") [str "ok"]
    (by decide) (by decide)

/-! ## Batching (translator.js) -/

/-- Worker for `buildParagraphBatches`: greedily append units while the
running character total (with 2 characters of separator overhead per joint)
stays within the limit, closing the current batch otherwise. -/
def buildBatchesGo (maxBatchChars : Nat) :
    List ParagraphUnit → List ParagraphUnit → Nat → List (List ParagraphUnit)
  | [], currentBatch, _ =>
    if currentBatch.isEmpty then [] else [currentBatch]
  | unit :: rest, currentBatch, currentBatchChars =>
    let paragraphLength := unit.ar.length
    let nextChars := currentBatchChars +
      (if 0 < currentBatch.length then 2 else 0) + paragraphLength
    if 0 < currentBatch.length ∧ maxBatchChars < nextChars then
      currentBatch :: buildBatchesGo maxBatchChars rest [unit] paragraphLength
    else
      buildBatchesGo maxBatchChars rest (currentBatch ++ [unit]) nextChars

/-- `buildParagraphBatches`: pack consecutive units into batches bounded by
`maxBatchChars`. -/
def buildParagraphBatches (units : List ParagraphUnit)
    (maxBatchChars : Nat) : List (List ParagraphUnit) :=
  buildBatchesGo maxBatchChars units [] 0

/-- The character total of a batch: source-text lengths plus 2 characters of
separator overhead per joint between consecutive units. -/
def batchWeight (batch : List ParagraphUnit) : Nat :=
  (batch.map fun u => u.ar.length).sum + 2 * (batch.length - 1)

/-! ## Translation client with retries (translator.js) -/

/-- The errors a single batch call can produce: the initial placeholder
error, the strict-JSON validation failure, or a transport failure. -/
inductive CallError where
  | unknown
  | invalidJson
  | transport (msg : Str)
  deriving DecidableEq, Repr

/-- The model oracle: for a paragraph list and 0-based attempt number,
either a transport error or the raw response text.  (The request content is
determined by the paragraphs and the attempt, so keying the oracle on those
captures every run of the client.) -/
structure ModelEnv where
  respond : List Str → Nat → Except Str Str

/-- `MAX_RETRIES`: additional attempts after the first. -/
def MAX_RETRIES : Nat := 2

/-- `BASE_BACKOFF_MS`. -/
def BASE_BACKOFF_MS : Nat := 350

/-- One attempt: call the model, then extract and validate the response. -/
def attemptOutcome (env : ModelEnv) (paragraphs : List Str)
    (attempt : Nat) : Except CallError (List Str) :=
  match env.respond paragraphs attempt with
  | .error msg => .error (.transport msg)
  | .ok raw =>
    match safeParseJson raw paragraphs.length with
    | some fa => .ok fa
    | none => .error .invalidJson

instance {ε α : Type} [DecidableEq ε] [DecidableEq α] :
    DecidableEq (Except ε α) := fun x y =>
  match x, y with
  | .ok a, .ok b =>
    if h : a = b then isTrue (by rw [h]) else isFalse (by simp [h])
  | .error e, .error f =>
    if h : e = f then isTrue (by rw [h]) else isFalse (by simp [h])
  | .ok _, .error _ => isFalse (by simp)
  | .error _, .ok _ => isFalse (by simp)

/-- The outcome of a full retry loop: the final result (success carries the
validated array and the 1-based attempt count), the number of model calls
made, and the backoff delays actually slept. -/
structure RetryOutcome where
  result : Except CallError (List Str × Nat)
  calls : Nat
  delays : List Nat
  deriving DecidableEq, Repr

/-- The retry loop of `translateBatchWithRetries`: `remaining` attempts are
left, `attempt` is the 0-based index of the next one.  Backoff (base delay
doubling each attempt plus jitter) is recorded only between attempts, and a
failure of the final attempt is raised as the last observed error. -/
def retryGo (env : ModelEnv) (paragraphs : List Str) (jitter : Nat → Nat) :
    Nat → Nat → RetryOutcome
  | 0, _ => ⟨.error .unknown, 0, []⟩
  | remaining + 1, attempt =>
    match attemptOutcome env paragraphs attempt with
    | .ok fa => ⟨.ok (fa, attempt + 1), 1, []⟩
    | .error e =>
      if remaining = 0 then ⟨.error e, 1, []⟩
      else
        let backoffMs := BASE_BACKOFF_MS * 2 ^ attempt + jitter attempt
        let rest := retryGo env paragraphs jitter remaining (attempt + 1)
        ⟨rest.result, rest.calls + 1, backoffMs :: rest.delays⟩

/-- `translateBatchWithRetries`: up to `MAX_RETRIES` additional attempts
after the first. -/
def translateBatchWithRetries (env : ModelEnv) (jitter : Nat → Nat)
    (paragraphs : List Str) : RetryOutcome :=
  retryGo env paragraphs jitter (MAX_RETRIES + 1) 0

/-! ## Batch processing, fallback, dispatch and merge (translator.js) -/

/-- The completion status of a translated unit. -/
inductive TStatus where
  | done
  | doneFallback
  deriving DecidableEq, Repr

/-- A translated unit as produced by `mapBatchToParagraphPairs`. -/
structure TranslatedChunk where
  id : Nat
  ar : Str
  fa : Str
  status : TStatus
  attempts : Nat
  deriving DecidableEq, Repr

/-- Worker for `mapBatchToParagraphPairs` (`batch.map((unit, index) => …)`):
missing translations default to the empty string and missing attempt counts
to 0, as in the source. -/
def mapPairsGo (faList : List Str) (attemptsList : List Nat)
    (status : TStatus) : List ParagraphUnit → Nat → List TranslatedChunk
  | [], _ => []
  | u :: rest, i =>
    { id := u.id, ar := u.ar, fa := faList.getD i [], status,
      attempts := attemptsList.getD i 0 } :: mapPairsGo faList attemptsList
        status rest (i + 1)

/-- `mapBatchToParagraphPairs`. -/
def mapBatchToParagraphPairs (batch : List ParagraphUnit)
    (faList : List Str) (status : TStatus) (attemptsList : List Nat) :
    List TranslatedChunk :=
  mapPairsGo faList attemptsList status batch 0

/-- The per-unit fallback loop: one single-paragraph call per unit, each
with the full retry policy; the first exhausted unit aborts the loop and
its error propagates. -/
def fallbackLoop (env : ModelEnv) (jitter : Nat → Nat) :
    List Str → Except CallError (List (Str × Nat)) × Nat
  | [] => (.ok [], 0)
  | paragraph :: rest =>
    let r := translateBatchWithRetries env jitter [paragraph]
    match r.result with
    | .error e => (.error e, r.calls)
    | .ok (fa, attempts) =>
      match fallbackLoop env jitter rest with
      | (.ok pairs, calls2) =>
        (.ok ((fa.headD [], attempts) :: pairs), r.calls + calls2)
      | (.error e, calls2) => (.error e, r.calls + calls2)

/-- Process one batch: try the whole-batch call; on exhaustion fall back to
per-unit calls tagged `doneFallback`; a fallback exhaustion propagates the
error.  Also returns the number of model calls made. -/
def processBatch (env : ModelEnv) (jitter : Nat → Nat)
    (batch : List ParagraphUnit) :
    Except CallError (List TranslatedChunk) × Nat :=
  let paragraphs := batch.map fun u => u.ar
  let r := translateBatchWithRetries env jitter paragraphs
  match r.result with
  | .ok (fa, attempts) =>
    (.ok (mapBatchToParagraphPairs batch fa .done
      (List.replicate batch.length attempts)), r.calls)
  | .error _ =>
    match fallbackLoop env jitter paragraphs with
    | (.ok pairs, calls2) =>
      (.ok (mapBatchToParagraphPairs batch (pairs.map fun p => p.1)
        .doneFallback (pairs.map fun p => p.2)), r.calls + calls2)
    | (.error e, calls2) => (.error e, r.calls + calls2)

/-- A progress event: the completed unit's snapshot plus the counters. -/
structure ProgressEvent where
  chunk : TranslatedChunk
  completed : Nat
  total : Nat
  deriving DecidableEq, Repr

/-- The progress events a completed batch contributes, given the number of
units completed before it. -/
def progressEventsOf (mapped : List TranslatedChunk)
    (completed total : Nat) : List ProgressEvent :=
  (mapped.enum.map fun ic => ⟨ic.2, completed + ic.1 + 1, total⟩)

/-- Sequential model of the bounded dispatcher: the worker pool writes each
batch result into a slot indexed by batch position, so the collected list of
batch states does not depend on completion order; a failed batch rejects the
whole `Promise.all`, so the first error is the call's result and no batch
states are returned. -/
def runBatches (env : ModelEnv) (jitter : Nat → Nat) (total : Nat) :
    List (List ParagraphUnit) → Nat →
      Except CallError (List (List TranslatedChunk)) × Nat ×
        List ProgressEvent
  | [], _ => (.ok [], 0, [])
  | batch :: rest, completed =>
    match processBatch env jitter batch with
    | (.error e, calls) => (.error e, calls, [])
    | (.ok mapped, calls) =>
      match runBatches env jitter total rest (completed + mapped.length) with
      | (restResult, calls2, events2) =>
        (match restResult with
         | .ok states => .ok (mapped :: states)
         | .error e => .error e,
         calls + calls2,
         progressEventsOf mapped completed total ++ events2)

/-- The batch states of a run, before flattening and merging. -/
def translateBatchStates (env : ModelEnv) (jitter : Nat → Nat)
    (units : List ParagraphUnit) (maxBatchChars : Nat) :
    Except CallError (List (List TranslatedChunk)) × Nat ×
      List ProgressEvent :=
  runBatches env jitter units.length
    (buildParagraphBatches units maxBatchChars) 0

/-- The result merger: `flat().sort((a, b) => a.id - b.id)`, a stable sort
on `id`. -/
def sortById (l : List TranslatedChunk) : List TranslatedChunk :=
  List.insertionSort (fun a b => a.id ≤ b.id) l

/-- The observable outcome of `translateUnits`: the settled promise, the
total number of model calls, and the progress events. -/
structure RunResult where
  result : Except CallError (List TranslatedChunk)
  calls : Nat
  progress : List ProgressEvent
  deriving DecidableEq, Repr

/-- `translateUnits`: clamp the limit to at least 200, batch, dispatch,
then flatten and merge by `id`. -/
def translateUnits (env : ModelEnv) (jitter : Nat → Nat)
    (units : List ParagraphUnit) (maxChunkChars : Nat) : RunResult :=
  let maxBatchChars := max 200 maxChunkChars
  match translateBatchStates env jitter units maxBatchChars with
  | (.ok states, calls, events) =>
    ⟨.ok (sortById states.flatten), calls, events⟩
  | (.error e, calls, events) => ⟨.error e, calls, events⟩

/-- The (id, source text) view of a translated chunk. -/
def chunkKey (c : TranslatedChunk) : Nat × Str := (c.id, c.ar)

/-- The (id, source text) view of a unit — everything batching and
translation may consume. -/
def unitKey (u : ParagraphUnit) : Nat × Str := (u.id, u.ar)

/-! ### Batching invariant (claim C4) -/

theorem mem_le_batchWeight {u : ParagraphUnit} {B : List ParagraphUnit}
    (h : u ∈ B) : u.ar.length ≤ batchWeight B := by
  unfold batchWeight
  have h2 : u.ar.length ≤ (B.map fun v => v.ar.length).sum :=
    List.single_le_sum (fun x _ => Nat.zero_le x) _
      (List.mem_map_of_mem _ h)
  omega

theorem batchWeight_singleton (u : ParagraphUnit) :
    batchWeight [u] = u.ar.length := by
  simp [batchWeight]

theorem batchWeight_append_one (B : List ParagraphUnit)
    (u : ParagraphUnit) :
    batchWeight (B ++ [u]) =
      batchWeight B + (if 0 < B.length then 2 else 0) + u.ar.length := by
  unfold batchWeight
  by_cases h : B = []
  · subst h
    simp
  · have hlen : 0 < B.length := List.length_pos.mpr h
    rw [if_pos hlen]
    simp only [List.map_append, List.sum_append, List.length_append]
    simp
    omega

/-- The invariant each produced batch satisfies. -/
def goodBatch (m : Nat) (B : List ParagraphUnit) : Prop :=
  (batchWeight B ≤ m ∨ ∃ u, B = [u] ∧ m < u.ar.length) ∧
  ∀ u ∈ B, m < u.ar.length → B = [u]

theorem goodBatch_nil (m : Nat) : goodBatch m [] := by
  constructor
  · left
    simp [batchWeight]
  · simp

theorem goodBatch_singleton (m : Nat) (u : ParagraphUnit) :
    goodBatch m [u] := by
  constructor
  · by_cases h : u.ar.length ≤ m
    · left
      simpa [batchWeight_singleton] using h
    · right
      exact ⟨u, rfl, Nat.not_le.mp h⟩
  · intro v hv _
    simp only [List.mem_singleton] at hv
    rw [hv]

theorem buildBatchesGo_good {m : Nat} :
    ∀ (us cur : List ParagraphUnit) (chars : Nat),
      chars = batchWeight cur → goodBatch m cur →
      ∀ B ∈ buildBatchesGo m us cur chars, goodBatch m B := by
  intro us
  induction us with
  | nil =>
    intro cur chars _ hgood B hB
    by_cases h : cur.isEmpty = true
    · simp [buildBatchesGo, h] at hB
    · simp only [buildBatchesGo, if_neg h, List.mem_singleton] at hB
      rw [hB]
      exact hgood
  | cons u rest ih =>
    intro cur chars hchars hgood B hB
    rw [buildBatchesGo] at hB
    by_cases hcl : 0 < cur.length ∧
        m < chars + (if 0 < cur.length then 2 else 0) + u.ar.length
    · rw [if_pos hcl] at hB
      rcases List.mem_cons.mp hB with rfl | hB
      · exact hgood
      · exact ih [u] u.ar.length (batchWeight_singleton u).symm
          (goodBatch_singleton m u) B hB
    · rw [if_neg hcl] at hB
      refine ih (cur ++ [u]) _ ?_ ?_ B hB
      · rw [batchWeight_append_one, hchars]
      · rcases Nat.eq_zero_or_pos cur.length with hz | hpos
        · have : cur = [] := List.length_eq_zero.mp hz
          subst this
          simpa using goodBatch_singleton m u
        · have hle : chars + (if 0 < cur.length then 2 else 0) +
              u.ar.length ≤ m := by
            rcases Nat.lt_or_ge m
                (chars + (if 0 < cur.length then 2 else 0) + u.ar.length)
              with hlt | hge
            · exact absurd ⟨hpos, hlt⟩ hcl
            · exact hge
          have hw : batchWeight (cur ++ [u]) ≤ m := by
            rw [batchWeight_append_one, ← hchars]
            exact hle
          constructor
          · exact Or.inl hw
          · intro v hv hvlen
            exact absurd (Nat.lt_of_lt_of_le hvlen
              (Nat.le_trans (mem_le_batchWeight hv) hw)) (Nat.lt_irrefl m)

/-- C4: every batch respects the character limit, where the character total
counts 2 characters of separator overhead per joint, except that a batch may
consist of exactly one unit whose own length exceeds the limit; moreover an
oversized unit is always emitted alone in its own one-unit batch. -/
theorem claimC4 (units : List ParagraphUnit) (maxBatchChars : Nat)
    (B : List ParagraphUnit)
    (hB : B ∈ buildParagraphBatches units maxBatchChars) :
    (batchWeight B ≤ maxBatchChars ∨
      ∃ u, B = [u] ∧ maxBatchChars < u.ar.length) ∧
    ∀ u ∈ B, maxBatchChars < u.ar.length → B = [u] :=
  buildBatchesGo_good units [] 0 (by simp [batchWeight])
    (goodBatch_nil maxBatchChars) B hB

/-- Witness for C4 on two concrete units and limit 3: the first batch meets
the weight bound and contains no oversized unit. -/
theorem claimC4_witness :
    (batchWeight [⟨1, str "abc", []⟩] ≤ 3 ∨
      ∃ u, [(⟨1, str "abc", []⟩ : ParagraphUnit)] = [u] ∧ 3 < u.ar.length) ∧
    ∀ u ∈ [(⟨1, str "abc", []⟩ : ParagraphUnit)], 3 < u.ar.length →
      [(⟨1, str "abc", []⟩ : ParagraphUnit)] = [u] :=
  claimC4 [⟨1, str "abc", []⟩, ⟨2, str "de", []⟩] 3
    [⟨1, str "abc", []⟩] (by decide)

theorem buildBatchesGo_flatten (m : Nat) :
    ∀ (us cur : List ParagraphUnit) (chars : Nat),
      (buildBatchesGo m us cur chars).flatten = cur ++ us := by
  intro us
  induction us with
  | nil =>
    intro cur chars
    by_cases h : cur.isEmpty = true
    · simp [buildBatchesGo, h, List.isEmpty_iff.mp h]
    · simp [buildBatchesGo, h]
  | cons u rest ih =>
    intro cur chars
    rw [buildBatchesGo]
    by_cases hcl : 0 < cur.length ∧
        m < chars + (if 0 < cur.length then 2 else 0) + u.ar.length
    · rw [if_pos hcl]
      simp [ih]
    · rw [if_neg hcl]
      simp [ih]

theorem buildParagraphBatches_flatten (units : List ParagraphUnit)
    (m : Nat) : (buildParagraphBatches units m).flatten = units :=
  buildBatchesGo_flatten m units [] 0

/-! ### Retry policy (claim C8) -/

/-- C8: a batch translation call makes at most 3 model calls (2 additional
attempts after the first); backoff delays occur only between attempts, never
after the final one (their count is the call count minus one); success
carries the validated array and the 1-based attempt count at which the
first successful attempt occurred, after only failed attempts; and if every
attempt fails, the error of the last attempt (parse/shape mismatch or
transport failure) is raised. -/
theorem claimC8 (env : ModelEnv) (jitter : Nat → Nat)
    (paragraphs : List Str) :
    (translateBatchWithRetries env jitter paragraphs).calls ≤ 3 ∧
    (translateBatchWithRetries env jitter paragraphs).delays.length =
      (translateBatchWithRetries env jitter paragraphs).calls - 1 ∧
    (∀ fa k,
      (translateBatchWithRetries env jitter paragraphs).result =
        .ok (fa, k) →
      1 ≤ k ∧ k ≤ 3 ∧
      k = (translateBatchWithRetries env jitter paragraphs).calls ∧
      attemptOutcome env paragraphs (k - 1) = .ok fa ∧
      ∀ j, j < k - 1 → ∃ e, attemptOutcome env paragraphs j = .error e) ∧
    (∀ e,
      (translateBatchWithRetries env jitter paragraphs).result = .error e →
      (translateBatchWithRetries env jitter paragraphs).calls = 3 ∧
      attemptOutcome env paragraphs 2 = .error e ∧
      ∀ j, j < 2 → ∃ e2, attemptOutcome env paragraphs j = .error e2) := by
  have hdef : translateBatchWithRetries env jitter paragraphs =
      retryGo env paragraphs jitter 3 0 := rfl
  rcases h0 : attemptOutcome env paragraphs 0 with e0 | fa0
  case ok =>
    have hr : retryGo env paragraphs jitter 3 0 = ⟨.ok (fa0, 1), 1, []⟩ := by
      rw [retryGo, h0]
    rw [hdef, hr]
    refine ⟨by simp, by simp, ?_, ?_⟩
    · intro fa k heq
      simp only [Except.ok.injEq, Prod.mk.injEq] at heq
      obtain ⟨rfl, rfl⟩ := heq
      refine ⟨Nat.le.refl, by omega, by simp, by simpa using h0, ?_⟩
      intro j hj
      omega
    · intro e heq
      simp at heq
  case error =>
    rcases h1 : attemptOutcome env paragraphs 1 with e1 | fa1
    case ok =>
      have hr : retryGo env paragraphs jitter 3 0 =
          ⟨.ok (fa1, 2), 2,
            [BASE_BACKOFF_MS * 2 ^ 0 + jitter 0]⟩ := by
        rw [retryGo, h0]
        simp only [reduceIte]
        rw [retryGo, h1]
        simp
      rw [hdef, hr]
      refine ⟨by simp, by simp, ?_, ?_⟩
      · intro fa k heq
        simp only [Except.ok.injEq, Prod.mk.injEq] at heq
        obtain ⟨rfl, rfl⟩ := heq
        refine ⟨by omega, by omega, by simp, by simpa using h1, ?_⟩
        intro j hj
        match j, hj with
        | 0, _ => exact ⟨e0, h0⟩
      · intro e heq
        simp at heq
    case error =>
      rcases h2 : attemptOutcome env paragraphs 2 with e2 | fa2
      case ok =>
        have hr : retryGo env paragraphs jitter 3 0 =
            ⟨.ok (fa2, 3), 3,
              [BASE_BACKOFF_MS * 2 ^ 0 + jitter 0,
               BASE_BACKOFF_MS * 2 ^ 1 + jitter 1]⟩ := by
          rw [retryGo, h0]
          simp only [reduceIte]
          rw [retryGo, h1]
          simp only [reduceIte]
          rw [retryGo, h2]
          simp
        rw [hdef, hr]
        refine ⟨by simp, by simp, ?_, ?_⟩
        · intro fa k heq
          simp only [Except.ok.injEq, Prod.mk.injEq] at heq
          obtain ⟨rfl, rfl⟩ := heq
          refine ⟨by omega, by omega, by simp, by simpa using h2, ?_⟩
          intro j hj
          match j, hj with
          | 0, _ => exact ⟨e0, h0⟩
          | 1, _ => exact ⟨e1, h1⟩
        · intro e heq
          simp at heq
      case error =>
        have hr : retryGo env paragraphs jitter 3 0 =
            ⟨.error e2, 3,
              [BASE_BACKOFF_MS * 2 ^ 0 + jitter 0,
               BASE_BACKOFF_MS * 2 ^ 1 + jitter 1]⟩ := by
          rw [retryGo, h0]
          simp only [reduceIte]
          rw [retryGo, h1]
          simp only [reduceIte]
          rw [retryGo, h2]
          simp
        rw [hdef, hr]
        refine ⟨by simp, by simp, ?_, ?_⟩
        · intro fa k heq
          simp at heq
        · intro e heq
          simp only [Except.error.injEq] at heq
          subst heq
          refine ⟨by simp, rfl, ?_⟩
          intro j hj
          match j, hj with
          | 0, _ => exact ⟨e0, h0⟩
          | 1, _ => exact ⟨e1, h1⟩

/-- The environment whose model transport always fails. -/
def envDown : ModelEnv := ⟨fun _ _ => .error (str "down")⟩

/-- The deterministic zero jitter used by concrete witnesses. -/
def jitterZero : Nat → Nat := fun _ => 0

/-- Witness for C8: with a transport that always fails, the retry loop makes
exactly 3 calls, sleeps twice, and raises the last transport error. -/
theorem claimC8_witness :
    (translateBatchWithRetries envDown jitterZero [str "p"]).calls = 3 ∧
    attemptOutcome envDown [str "p"] 2 =
      .error (.transport (str "down")) :=
  have h := (claimC8 envDown jitterZero [str "p"]).2.2.2
    (.transport (str "down")) (by decide)
  ⟨h.1, h.2.1⟩

/-! ### Empty input (claim C10) -/

/-- C10: for the empty unit sequence the batcher produces no batches and
`translateUnits` returns the empty result immediately — an empty merged
sequence, zero model calls, and no progress events. -/
theorem claimC10 (env : ModelEnv) (jitter : Nat → Nat)
    (maxChunkChars : Nat) :
    buildParagraphBatches [] (max 200 maxChunkChars) = [] ∧
    translateUnits env jitter [] maxChunkChars =
      ⟨.ok [], 0, []⟩ :=
  ⟨rfl, rfl⟩

/-! ### Fallback exhaustion propagation (claim C1) -/

/-- A 150-character paragraph (first unit). -/
def aLong : Str := List.replicate 150 'a'

/-- A 150-character paragraph (second unit). -/
def bLong : Str := List.replicate 150 'b'

/-- Two units that batch into two one-unit batches at limit 200. -/
def unitsC1 : List ParagraphUnit := [⟨1, aLong, [aLong]⟩, ⟨2, bLong, [bLong]⟩]

/-- A model that always transport-fails on the first unit's paragraph (as a
batch and as a fallback single alike) and answers any other request with
valid JSON. -/
def envC1 : ModelEnv :=
  ⟨fun ps _ =>
    if ps = [aLong] then .error (str "fail")
    else .ok (str "\x7b\"fa\": [\"x\"]\x7d")⟩

set_option maxRecDepth 4000 in
/-- C1 as stated is false: in a run with two one-unit batches where the
first batch exhausts its batch retries and its per-unit fallback also
exhausts retries, while the second batch on its own succeeds, the error is
not isolated to the failed batch.  `translateUnits` does not return a result
set short of that batch's units — it fails as a whole, returning the
propagated error, and the second batch's results are not returned. -/
theorem claimC1_counterexample :
    (translateBatchWithRetries envC1 jitterZero [bLong]).result =
      .ok ([str "x"], 1) ∧
    (processBatch envC1 jitterZero [⟨1, aLong, [aLong]⟩]).1 =
      .error (.transport (str "fail")) ∧
    (translateUnits envC1 jitterZero unitsC1 200).result =
      .error (.transport (str "fail")) := by
  refine ⟨?_, ?_, ?_⟩ <;> decide

theorem runBatches_error_of_prefix (env : ModelEnv) (jitter : Nat → Nat)
    (total : Nat) (e : CallError) :
    ∀ (bs1 : List (List ParagraphUnit)) (b : List ParagraphUnit)
      (bs2 : List (List ParagraphUnit)) (completed : Nat),
      (∀ b' ∈ bs1, ∃ mapped calls,
        processBatch env jitter b' = (.ok mapped, calls)) →
      (processBatch env jitter b).1 = .error e →
      (runBatches env jitter total (bs1 ++ b :: bs2) completed).1 =
        .error e := by
  intro bs1
  induction bs1 with
  | nil =>
    intro b bs2 completed _ hb
    rw [List.nil_append, runBatches]
    rcases hpb : processBatch env jitter b with ⟨res, calls⟩
    rw [hpb] at hb
    simp only at hb
    subst hb
    simp
  | cons b' bs1' ih =>
    intro b bs2 completed hpre hb
    rw [List.cons_append, runBatches]
    obtain ⟨mapped, calls, hok⟩ := hpre b' (List.mem_cons_self _ _)
    rcases hrest : runBatches env jitter total (bs1' ++ b :: bs2)
        (completed + mapped.length) with ⟨restRes, calls2, events2⟩
    have hih := ih b bs2 (completed + mapped.length)
      (fun x hx => hpre x (List.mem_cons_of_mem _ hx)) hb
    rw [hrest] at hih
    simp only at hih
    subst hih
    rw [hok]
    simp [hrest]

/-- C1 (amended): when some batch's processing fails — its batch call and
then an individual unit's fallback retries are both exhausted — while every
earlier batch succeeds, the error propagates out of the whole
`translateUnits` call: the run's result is that error and no batch's results
are returned, rather than the result set being short only the failed batch's
units. -/
theorem claimC1_amended (env : ModelEnv) (jitter : Nat → Nat)
    (units : List ParagraphUnit) (maxChunkChars : Nat)
    (bs1 bs2 : List (List ParagraphUnit)) (b : List ParagraphUnit)
    (e : CallError)
    (hsplit : buildParagraphBatches units (max 200 maxChunkChars) =
      bs1 ++ b :: bs2)
    (hpre : ∀ b' ∈ bs1, ∃ mapped calls,
      processBatch env jitter b' = (.ok mapped, calls))
    (hb : (processBatch env jitter b).1 = .error e) :
    (translateUnits env jitter units maxChunkChars).result = .error e := by
  have hrun := runBatches_error_of_prefix env jitter units.length e bs1 b bs2
    0 hpre hb
  rw [← hsplit] at hrun
  have hts0 : (translateBatchStates env jitter units
      (max 200 maxChunkChars)).1 = .error e := hrun
  simp only [translateUnits]
  rcases hts : translateBatchStates env jitter units (max 200 maxChunkChars)
    with ⟨res, calls, events⟩
  rw [hts] at hts0
  simp only at hts0
  subst hts0
  simp

set_option maxRecDepth 4000 in
/-- Witness for the amended C1 at the concrete two-batch scenario of the
counterexample. -/
theorem claimC1_witness :
    (translateUnits envC1 jitterZero unitsC1 200).result =
      .error (.transport (str "fail")) :=
  claimC1_amended envC1 jitterZero unitsC1 200 []
    [[⟨2, bLong, [bLong]⟩]] [⟨1, aLong, [aLong]⟩]
    (.transport (str "fail")) (by decide) (by simp) (by decide)

/-! ### Merge order invariant (claim C2) -/

theorem mapPairsGo_key (faList : List Str) (attemptsList : List Nat)
    (status : TStatus) :
    ∀ (batch : List ParagraphUnit) (i : Nat),
      (mapPairsGo faList attemptsList status batch i).map chunkKey =
        batch.map unitKey := by
  intro batch
  induction batch with
  | nil => intro i; simp [mapPairsGo]
  | cons u rest ih =>
    intro i
    simp [mapPairsGo, chunkKey, unitKey, ih]

theorem mapBatchToParagraphPairs_key (batch : List ParagraphUnit)
    (faList : List Str) (status : TStatus) (attemptsList : List Nat) :
    (mapBatchToParagraphPairs batch faList status attemptsList).map chunkKey =
      batch.map unitKey :=
  mapPairsGo_key faList attemptsList status batch 0

theorem processBatch_ok_key {env : ModelEnv} {jitter : Nat → Nat}
    {batch : List ParagraphUnit} {mapped : List TranslatedChunk}
    {calls : Nat}
    (h : processBatch env jitter batch = (.ok mapped, calls)) :
    mapped.map chunkKey = batch.map unitKey := by
  simp only [processBatch] at h
  rcases hres : (translateBatchWithRetries env jitter
      (batch.map fun u => u.ar)).result with e | p
  · rw [hres] at h
    rcases hfl : fallbackLoop env jitter (batch.map fun u => u.ar)
      with ⟨flres, calls2⟩
    rw [hfl] at h
    cases flres with
    | error e2 => simp at h
    | ok pairs =>
      simp only [Prod.mk.injEq, Except.ok.injEq] at h
      rw [← h.1]
      exact mapBatchToParagraphPairs_key _ _ _ _
  · rcases p with ⟨fa, attempts⟩
    rw [hres] at h
    simp only [Prod.mk.injEq, Except.ok.injEq] at h
    rw [← h.1]
    exact mapBatchToParagraphPairs_key _ _ _ _

theorem runBatches_ok_key (env : ModelEnv) (jitter : Nat → Nat)
    (total : Nat) :
    ∀ (batches : List (List ParagraphUnit)) (completed : Nat)
      (states : List (List TranslatedChunk)) (calls : Nat)
      (events : List ProgressEvent),
      runBatches env jitter total batches completed =
        (.ok states, calls, events) →
      states.flatten.map chunkKey = batches.flatten.map unitKey := by
  intro batches
  induction batches with
  | nil =>
    intro completed states calls events h
    simp only [runBatches, Prod.mk.injEq, Except.ok.injEq] at h
    rw [← h.1]
    simp
  | cons batch rest ih =>
    intro completed states calls events h
    rw [runBatches] at h
    rcases hpb : processBatch env jitter batch with ⟨res, calls1⟩
    rw [hpb] at h
    cases res with
    | error e => simp at h
    | ok mapped =>
      simp only [] at h
      rcases hrest : runBatches env jitter total rest
          (completed + mapped.length) with ⟨restRes, calls2, events2⟩
      rw [hrest] at h
      cases restRes with
      | error e => simp at h
      | ok states2 =>
        simp only [Prod.mk.injEq, Except.ok.injEq] at h
        rw [← h.1]
        simp only [List.flatten_cons, List.map_append]
        rw [processBatch_ok_key hpb, ih _ _ _ _ hrest]

theorem ids_pairwise_lt {l : List TranslatedChunk} {N : Nat}
    (h : l.map (fun c => c.id) = List.range' 1 N) :
    l.Pairwise fun a b => a.id < b.id := by
  have hp := List.pairwise_lt_range' 1 N
  rw [← h] at hp
  exact List.pairwise_map.mp hp

theorem sortById_of_sorted {l : List TranslatedChunk}
    (h : l.Pairwise fun a b => a.id < b.id) : sortById l = l :=
  List.Sorted.insertionSort_eq (h.imp fun hab => Nat.le_of_lt hab)

theorem sortById_perm (l : List TranslatedChunk) : (sortById l).Perm l :=
  List.perm_insertionSort _ l

theorem sortById_sorted (l : List TranslatedChunk) :
    (sortById l).Pairwise fun a b => a.id ≤ b.id := by
  haveI : IsTotal TranslatedChunk (fun a b => a.id ≤ b.id) :=
    ⟨fun a b => Nat.le_total a.id b.id⟩
  haveI : IsTrans TranslatedChunk (fun a b => a.id ≤ b.id) :=
    ⟨fun _ _ _ hab hbc => Nat.le_trans hab hbc⟩
  exact List.sorted_insertionSort _ l

theorem sorted_lt_of_le_nodup {l : List TranslatedChunk}
    (hs : l.Pairwise fun a b => a.id ≤ b.id)
    (hn : (l.map fun c => c.id).Nodup) :
    l.Pairwise fun a b => a.id < b.id := by
  have hne : l.Pairwise fun a b => a.id ≠ b.id := List.pairwise_map.mp hn
  exact (hs.and hne).imp fun hab => Nat.lt_of_le_of_ne hab.1 hab.2

theorem eq_of_perm_sorted_lt {l₁ l₂ : List TranslatedChunk}
    (hp : l₁.Perm l₂)
    (h1 : l₁.Pairwise fun a b => a.id < b.id)
    (h2 : l₂.Pairwise fun a b => a.id < b.id) : l₁ = l₂ := by
  haveI : IsAntisymm TranslatedChunk (fun a b => a.id < b.id) :=
    ⟨fun _ _ hab hba => absurd (Nat.lt_trans hab hba) (Nat.lt_irrefl _)⟩
  exact List.eq_of_perm_of_sorted hp h1 h2

theorem map_id_of_key {l : List TranslatedChunk} {us : List ParagraphUnit}
    (h : l.map chunkKey = us.map unitKey) :
    l.map (fun c => c.id) = us.map (fun u => u.id) := by
  have h2 := congrArg (List.map Prod.fst) h
  rw [List.map_map, List.map_map] at h2
  exact h2

/-- C2: when the unit builder has assigned ids contiguously 1..N and the run
succeeds with batch states `states`, `translateUnits` returns the merged
sequence; for every order in which batches complete — modelled as an
arbitrary permutation `l` of the pre-merge sequence — merging yields that
same sequence; and the merged sequence has exactly one entry per input unit,
with (id, source text) pairs equal to the input units' pairs and id values
exactly 1..N in increasing order. -/
theorem claimC2 (env : ModelEnv) (jitter : Nat → Nat)
    (units : List ParagraphUnit) (maxChunkChars : Nat)
    (states : List (List TranslatedChunk)) (l : List TranslatedChunk)
    (hids : units.map (fun u => u.id) = List.range' 1 units.length)
    (hok : (translateBatchStates env jitter units
      (max 200 maxChunkChars)).1 = .ok states)
    (hperm : l.Perm states.flatten) :
    (translateUnits env jitter units maxChunkChars).result =
      .ok (sortById states.flatten) ∧
    sortById l = sortById states.flatten ∧
    (sortById states.flatten).map chunkKey = units.map unitKey ∧
    (sortById states.flatten).map (fun c => c.id) =
      List.range' 1 units.length := by
  rcases hts : translateBatchStates env jitter units (max 200 maxChunkChars)
    with ⟨res, calls, events⟩
  rw [hts] at hok
  simp only at hok
  subst hok
  have hkey : states.flatten.map chunkKey = units.map unitKey := by
    have h2 := runBatches_ok_key env jitter units.length
      (buildParagraphBatches units (max 200 maxChunkChars)) 0 states calls
      events hts
    rw [buildParagraphBatches_flatten] at h2
    exact h2
  have hflids : states.flatten.map (fun c => c.id) =
      List.range' 1 units.length := by
    rw [map_id_of_key hkey, hids]
  have hsorted_lt : states.flatten.Pairwise fun a b => a.id < b.id :=
    ids_pairwise_lt hflids
  have hsort_self : sortById states.flatten = states.flatten :=
    sortById_of_sorted hsorted_lt
  refine ⟨?_, ?_, ?_, ?_⟩
  · simp only [translateUnits]
    rw [hts]
  · have hperm2 : (sortById l).Perm states.flatten := (sortById_perm l).trans hperm
    have hfnodup : (states.flatten.map fun c => c.id).Nodup := by
      rw [hflids]
      exact List.nodup_range' 1 units.length
    have hnodup : ((sortById l).map fun c => c.id).Nodup :=
      (hperm2.map (fun c => c.id)).nodup_iff.mpr hfnodup
    have hs1 : (sortById l).Pairwise fun a b => a.id < b.id :=
      sorted_lt_of_le_nodup (sortById_sorted l) hnodup
    rw [hsort_self]
    exact eq_of_perm_sorted_lt hperm2 hs1 hsorted_lt
  · rw [hsort_self]
    exact hkey
  · rw [hsort_self]
    exact hflids

/-- Two units answered by a single successful batched call. -/
def unitsC2 : List ParagraphUnit :=
  [⟨1, str "aa", [str "aa"]⟩, ⟨2, str "bb", [str "bb"]⟩]

/-- A model answering every request with a valid two-element array. -/
def envC2 : ModelEnv := ⟨fun _ _ => .ok (str "\x7b\"fa\": [\"x\", \"y\"]\x7d")⟩

/-- The batch states of the `unitsC2`/`envC2` run. -/
def statesC2 : List (List TranslatedChunk) :=
  [[⟨1, str "aa", str "x", .done, 1⟩, ⟨2, str "bb", str "y", .done, 1⟩]]

/-- The pre-merge sequence in reversed completion order. -/
def chunksSwappedC2 : List TranslatedChunk :=
  [⟨2, str "bb", str "y", .done, 1⟩, ⟨1, str "aa", str "x", .done, 1⟩]

/-- Witness for C2: the concrete run succeeds and merging the reversed
completion order gives the same merged sequence. -/
theorem claimC2_witness :
    (translateUnits envC2 jitterZero unitsC2 300).result =
      .ok (sortById statesC2.flatten) ∧
    sortById chunksSwappedC2 = sortById statesC2.flatten :=
  have h := claimC2 envC2 jitterZero unitsC2 300 statesC2 chunksSwappedC2
    (by decide) (by decide) (by decide)
  ⟨h.1, h.2.1⟩

/-! ### The sub-segmentation is never consumed downstream (claim C9) -/

theorem unitKey_parts {u v : ParagraphUnit} (h : unitKey u = unitKey v) :
    u.id = v.id ∧ u.ar = v.ar := by
  simp only [unitKey, Prod.mk.injEq] at h
  exact h

theorem buildBatchesGo_congr {m : Nat} :
    ∀ (us1 us2 cur1 cur2 : List ParagraphUnit) (chars : Nat),
      us1.map unitKey = us2.map unitKey →
      cur1.map unitKey = cur2.map unitKey →
      (buildBatchesGo m us1 cur1 chars).map (List.map unitKey) =
        (buildBatchesGo m us2 cur2 chars).map (List.map unitKey) := by
  intro us1
  induction us1 with
  | nil =>
    intro us2 cur1 cur2 chars hus hcur
    cases us2 with
    | cons v vs => simp at hus
    | nil =>
      have hlen : cur1.length = cur2.length := by
        have h2 := congrArg List.length hcur
        simpa using h2
      by_cases h1 : cur1.isEmpty = true
      · have h2 : cur2.isEmpty = true := by
          rw [List.isEmpty_iff] at h1 ⊢
          rw [h1] at hlen
          exact List.length_eq_zero.mp hlen.symm
        simp [buildBatchesGo, h1, h2]
      · have h2 : ¬ cur2.isEmpty = true := by
          intro hc
          rw [List.isEmpty_iff] at hc
          rw [hc] at hlen
          exact h1 (by
            rw [List.isEmpty_iff]
            exact List.length_eq_zero.mp hlen)
        simp [buildBatchesGo, h1, h2, hcur]
  | cons u1 r1 ih =>
    intro us2 cur1 cur2 chars hus hcur
    cases us2 with
    | nil => simp at hus
    | cons u2 r2 =>
      simp only [List.map_cons, List.cons.injEq] at hus
      obtain ⟨hu, hr⟩ := hus
      obtain ⟨_, har⟩ := unitKey_parts hu
      have harl : u1.ar.length = u2.ar.length := by rw [har]
      have hlen : cur1.length = cur2.length := by
        have h2 := congrArg List.length hcur
        simpa using h2
      rw [buildBatchesGo, buildBatchesGo, ← harl, ← hlen]
      by_cases hc : 0 < cur1.length ∧
          m < chars + (if 0 < cur1.length then 2 else 0) + u1.ar.length
      · rw [if_pos hc, if_pos hc]
        simp only [List.map_cons]
        rw [hcur]
        have hone : [u1].map unitKey = [u2].map unitKey := by
          simp [hu]
        rw [harl]
        exact congrArg _ (ih r2 [u1] [u2] u2.ar.length hr hone)
      · rw [if_neg hc, if_neg hc]
        refine ih r2 (cur1 ++ [u1]) (cur2 ++ [u2]) _ hr ?_
        simp only [List.map_append, List.map_cons, List.map_nil, hcur, hu]

theorem mapPairsGo_congr (faList : List Str) (attemptsList : List Nat)
    (status : TStatus) :
    ∀ (b1 b2 : List ParagraphUnit) (i : Nat),
      b1.map unitKey = b2.map unitKey →
      mapPairsGo faList attemptsList status b1 i =
        mapPairsGo faList attemptsList status b2 i := by
  intro b1
  induction b1 with
  | nil =>
    intro b2 i h
    cases b2 with
    | nil => rfl
    | cons v vs => simp at h
  | cons u1 r1 ih =>
    intro b2 i h
    cases b2 with
    | nil => simp at h
    | cons u2 r2 =>
      simp only [List.map_cons, List.cons.injEq] at h
      obtain ⟨hu, hr⟩ := h
      obtain ⟨hid, har⟩ := unitKey_parts hu
      rw [mapPairsGo, mapPairsGo, hid, har, ih r2 (i + 1) hr]

theorem processBatch_congr {env : ModelEnv} {jitter : Nat → Nat}
    {b1 b2 : List ParagraphUnit} (h : b1.map unitKey = b2.map unitKey) :
    processBatch env jitter b1 = processBatch env jitter b2 := by
  have hpar : b1.map (fun u => u.ar) = b2.map (fun u => u.ar) := by
    have h2 := congrArg (List.map Prod.snd) h
    rw [List.map_map, List.map_map] at h2
    exact h2
  have hlen : b1.length = b2.length := by
    have h2 := congrArg List.length h
    simpa using h2
  simp only [processBatch]
  rw [hpar, hlen]
  cases hres : (translateBatchWithRetries env jitter
      (b2.map fun u => u.ar)).result with
  | ok p =>
    rcases p with ⟨fa, attempts⟩
    simp only []
    rw [show mapBatchToParagraphPairs b1 fa .done
        (List.replicate b2.length attempts) =
      mapBatchToParagraphPairs b2 fa .done
        (List.replicate b2.length attempts) from
      mapPairsGo_congr _ _ _ b1 b2 0 h]
  | error e =>
    simp only []
    rcases hfl : fallbackLoop env jitter (b2.map fun u => u.ar)
      with ⟨flres, calls2⟩
    rw [hfl]
    cases flres with
    | error e2 => rfl
    | ok pairs =>
      simp only []
      rw [show mapBatchToParagraphPairs b1 (pairs.map fun p => p.1)
          .doneFallback (pairs.map fun p => p.2) =
        mapBatchToParagraphPairs b2 (pairs.map fun p => p.1)
          .doneFallback (pairs.map fun p => p.2) from
        mapPairsGo_congr _ _ _ b1 b2 0 h]

theorem runBatches_congr (env : ModelEnv) (jitter : Nat → Nat) :
    ∀ (bs1 bs2 : List (List ParagraphUnit)) (total completed : Nat),
      bs1.map (List.map unitKey) = bs2.map (List.map unitKey) →
      runBatches env jitter total bs1 completed =
        runBatches env jitter total bs2 completed := by
  intro bs1
  induction bs1 with
  | nil =>
    intro bs2 total completed h
    cases bs2 with
    | nil => rfl
    | cons b bs => simp at h
  | cons b1 rest1 ih =>
    intro bs2 total completed h
    cases bs2 with
    | nil => simp at h
    | cons b2 rest2 =>
      simp only [List.map_cons, List.cons.injEq] at h
      obtain ⟨hb, hr⟩ := h
      rw [runBatches, runBatches, processBatch_congr hb]
      cases hpb : processBatch env jitter b2 with
      | mk res calls =>
        cases res with
        | error e => rfl
        | ok mapped =>
          simp only []
          rw [ih rest2 total (completed + mapped.length) hr]

/-- C9: two unit sequences agreeing on every unit's id and source text and
differing only in the pre-computed sub-segmentation behave identically
downstream: batching partitions them identically (equal unit-key views) and
`translateUnits` produces fully equal results — the sub-segmentation is
never consumed by batching or translation. -/
theorem claimC9 (env : ModelEnv) (jitter : Nat → Nat)
    (us1 us2 : List ParagraphUnit) (maxChunkChars mb : Nat)
    (h : us1.map unitKey = us2.map unitKey) :
    (buildParagraphBatches us1 mb).map (List.map unitKey) =
      (buildParagraphBatches us2 mb).map (List.map unitKey) ∧
    translateUnits env jitter us1 maxChunkChars =
      translateUnits env jitter us2 maxChunkChars := by
  have hbatches : ∀ m',
      (buildParagraphBatches us1 m').map (List.map unitKey) =
        (buildParagraphBatches us2 m').map (List.map unitKey) :=
    fun m' => buildBatchesGo_congr us1 us2 [] [] 0 h rfl
  refine ⟨hbatches mb, ?_⟩
  have hlen : us1.length = us2.length := by
    have h2 := congrArg List.length h
    simpa using h2
  simp only [translateUnits, translateBatchStates]
  rw [hlen, runBatches_congr env jitter _ _ _ _
    (hbatches (max 200 maxChunkChars))]

/-- A unit whose sub-segmentation is the paragraph whole. -/
def unitsC9a : List ParagraphUnit := [⟨1, str "ab", [str "ab"]⟩]

/-- The same unit with a different pre-computed sub-segmentation. -/
def unitsC9b : List ParagraphUnit := [⟨1, str "ab", [str "a", str "b"]⟩]

/-- Witness for C9: the two concrete runs are fully equal. -/
theorem claimC9_witness :
    translateUnits envDown jitterZero unitsC9a 250 =
      translateUnits envDown jitterZero unitsC9b 250 :=
  (claimC9 envDown jitterZero unitsC9a unitsC9b 250 250 (by decide)).2

end Translator
